import Mathlib

/-!
# Token-bucket rate limiter: `limiter/limiter.go`

A shallow embedding of the Go package `limiter` and the properties proved about it.

* Part 1 embeds the sequential code: `New`, `TokenBucket.Allow`, the steps of
  `TokenBucket.Wait`, the tick branch of `TokenBucket.refill` and `TokenBucket.Stop`.
  Go's `int`, `int64` and `time.Duration` are embedded as `Int`.  No wrap-around is
  modelled for the counter: `tokens--` runs only under `tokens > 0` and `tokens++`
  only under `tokens < capacity`, so neither can leave the `int64` range.
* Part 2 is the whole bucket as a transition system: callers, the refill goroutine,
  the ticker and a nanosecond clock.  Every section of code that runs between
  `tb.mu.Lock()` and `tb.mu.Unlock()` is one atomic step.
* Part 3 is a finer model of concurrent `Allow` calls in which the mutex is explicit
  and the body of `Allow` is split into its statements.
* Part 4 names the quantities some properties are stated with (skew of the ticker period,
  ticks per second, ticks in flight at shutdown, background events).
-/

namespace Limiter

/-! ## Part 1: the sequential code -/

/-- The constant `time.Second`, in nanoseconds (`time.Duration` counts nanoseconds). -/
def Second : Int := 1000000000

/-- Error values a `context.Context` can report: `context.Canceled` and
`context.DeadlineExceeded`. -/
inductive CtxErr where
  | Canceled
  | DeadlineExceeded
deriving DecidableEq, Repr

/-- A `context.Context` as `Wait` sees it.  `err` is the value of `ctx.Err()`: `none`
(Go `nil`) while the context is live, and the context's error once it is done.  The
channel `ctx.Done()` is closed exactly when `err` is not `none`. -/
structure Context where
  err : Option CtxErr
deriving DecidableEq, Repr

/-- The part of a `*time.Ticker` the limiter depends on: its period `d` in nanoseconds
and whether `Stop` has been called on it. -/
structure Ticker where
  d : Int
  stopped : Bool
deriving DecidableEq, Repr

/-- Go standard library `time.NewTicker(d)`: "The duration d must be greater than zero;
if not, NewTicker will panic."  `none` is the panic. -/
def NewTicker (d : Int) : Option Ticker :=
  if d ≤ 0 then none else some { d := d, stopped := false }

/-- The struct `TokenBucket` (limiter.go, lines 9-17).  `mu` holds no data and is modelled
by atomic steps (Part 2) or by an explicit lock bit (Part 3); `notifyCh` is unbuffered, so
it never holds a value; of `stopCh` only whether it has been closed matters. -/
structure TokenBucket where
  rate : Int
  capacity : Int
  tokens : Int
  ticker : Ticker
  stopClosed : Bool
deriving DecidableEq, Repr

/-- The three ways a call of `New` can end: `return nil`, a panic, or `return tb`. -/
inductive NewResult where
  | null
  | panic
  | bucket (tb : TokenBucket)
deriving DecidableEq, Repr

/-- Resources a call of `New` creates: a running ticker (`time.NewTicker`) and the
background goroutine (`go tb.refill()`). -/
inductive Effect where
  | newTicker (d : Int)
  | goRefill
deriving DecidableEq, Repr

/-- What a call of `New` returns together with the resources it created on the way. -/
structure NewOutcome where
  result : NewResult
  effects : List Effect
deriving DecidableEq, Repr

/-- The function `New` (limiter.go, lines 19-38).  `time.Second / time.Duration(rate)` is
Go's integer division, which truncates toward zero (`Int.tdiv`). -/
def New (rate capacity : Int) : NewOutcome :=
  if rate ≤ 0 ∨ capacity ≤ 0 then
    { result := .null, effects := [] }
  else
    let interval := Int.tdiv Second rate
    match NewTicker interval with
    | none => { result := .panic, effects := [] }
    | some t =>
      { result := .bucket
          { rate := rate, capacity := capacity, tokens := capacity,
            ticker := t, stopClosed := false }
        effects := [.newTicker interval, .goRefill] }

/-- The method `Allow` (limiter.go, lines 40-49): the returned flag and the bucket after
the call.  The whole body runs with `mu` held. -/
def TokenBucket.Allow (tb : TokenBucket) : Bool × TokenBucket :=
  if tb.tokens > 0 then
    (true, { tb with tokens := tb.tokens - 1 })
  else
    (false, tb)

/-- Where a call of `Wait` stands (limiter.go, lines 51-74).
* `entry`: at the first `select` (line 52).
* `lock`: at `tb.mu.Lock()` at the top of the `for` loop (line 59).
* `select`: `mu` released (line 65), about to run the `select` of line 67.
* `parked`: suspended in the `select` of line 67, receiving on `notifyCh` and `ctx.Done()`.
* `done e`: returned; `e = none` is Go's `nil` error. -/
inductive WaitPc where
  | entry
  | lock
  | select
  | parked
  | done (e : Option CtxErr)
deriving DecidableEq, Repr

/-- One step of a `Wait` call that the caller takes on its own, given the context and the
bucket as they are at that moment; `none` when the call cannot move by itself (it is
suspended with a live context, or it has returned).
* `entry`: `select { case <-ctx.Done(): return ctx.Err(); default: }`.
* `lock`: lines 59-65, run with `mu` held: take a token and return `nil`, or unlock.
* `select`: no sender ever blocks on `notifyCh` (refill only sends without blocking), so
  only `ctx.Done()` can be ready when the `select` starts; otherwise the call suspends.
* `parked`: woken by `ctx.Done()` (the wake-up through `notifyCh` is a step of refill). -/
def TokenBucket.WaitStep (tb : TokenBucket) (ctx : Context) : WaitPc → Option (WaitPc × TokenBucket)
  | .entry =>
    match ctx.err with
    | some e => some (.done (some e), tb)
    | none => some (.lock, tb)
  | .lock =>
    if tb.tokens > 0 then
      some (.done none, { tb with tokens := tb.tokens - 1 })
    else
      some (.select, tb)
  | .select =>
    match ctx.err with
    | some e => some (.done (some e), tb)
    | none => some (.parked, tb)
  | .parked =>
    match ctx.err with
    | some e => some (.done (some e), tb)
    | none => none
  | .done _ => none

/-- The tick branch of `refill` (limiter.go, lines 84-95), run with `mu` held.
`receiverParked` tells whether some goroutine is suspended receiving on `notifyCh` when
the non-blocking send of lines 88-93 runs.  Returns the bucket after the tick and whether
the send was delivered. -/
def TokenBucket.refillTick (tb : TokenBucket) (receiverParked : Bool) : TokenBucket × Bool :=
  if tb.tokens < tb.capacity then
    ({ tb with tokens := tb.tokens + 1 }, receiverParked)
  else
    (tb, false)

/-- The method `Stop` (limiter.go, lines 76-79): `tb.ticker.Stop()`, then `close(tb.stopCh)`.
Closing a channel that is already closed panics in Go; `none` is that panic. -/
def TokenBucket.Stop (tb : TokenBucket) : Option TokenBucket :=
  let tb1 := { tb with ticker := { tb.ticker with stopped := true } }
  if tb1.stopClosed then none else some { tb1 with stopClosed := true }

/-- Results of `n` consecutive `Allow` calls on `tb` with nothing else touching the bucket
in between, in call order, and the bucket afterwards. -/
def allowRun : Nat → TokenBucket → List Bool × TokenBucket
  | 0, tb => ([], tb)
  | n + 1, tb =>
    let r := tb.Allow
    let rest := allowRun n r.2
    (r.1 :: rest.1, rest.2)

/-- The bucket after `n` consecutive ticks handled by `refill`, no waiter being suspended. -/
def tickRun : Nat → TokenBucket → TokenBucket
  | 0, tb => tb
  | n + 1, tb => tickRun n (tb.refillTick false).1

/-! ## Part 2: the bucket as a transition system -/

/-- A call of `Wait` in flight: where it stands, its context, and (ghost) `taken`, the
amount by which the steps of this call have lowered the token count so far. -/
structure Waiter where
  pc : WaitPc
  ctx : Context
  taken : Int
deriving DecidableEq, Repr

/-- Where the goroutine started by `go tb.refill()` stands (limiter.go, lines 81-100).
* `idle`: suspended in the `select` of line 83.
* `ticked`: has received from `tb.ticker.C` (line 84), at `tb.mu.Lock()` (line 85).
* `exited`: has received from `stopCh` and returned (lines 96-97). -/
inductive RefillPc where
  | idle
  | ticked
  | exited
deriving DecidableEq, Repr

/-- The state of a bucket and of everything that runs on it.
* `tickPending`: the channel `ticker.C` (buffer of one) holds a tick.
* `now`: nanoseconds elapsed since the ticker was created in `New`.
* `nextTick`: the time at which the ticker is due to fire next.
* `panicked`: some goroutine has panicked (the Go program is dead).
* Ghost counters: `admitted` counts successful admissions (`Allow` returning `true`,
  `Wait` returning `nil`), `fired` the times the ticker fired, `ticks` the ticks `refill`
  has handled and `added` those of them that found `tokens < capacity`. -/
structure Sys where
  tb : TokenBucket
  waiters : List Waiter
  refill : RefillPc
  tickPending : Bool
  now : Int
  nextTick : Int
  panicked : Bool
  admitted : Nat
  fired : Nat
  ticks : Nat
  added : Nat
deriving DecidableEq, Repr

/-- The state right after `New` has returned `tb`: no caller yet, `refill` started, the
ticker due to fire for the first time one period after its creation. -/
def Sys.init (tb : TokenBucket) : Sys :=
  { tb := tb, waiters := [], refill := .idle, tickPending := false, now := 0,
    nextTick := tb.ticker.d, panicked := false, admitted := 0, fired := 0, ticks := 0,
    added := 0 }

/-- The steps of the system.
* `allow`: a call of `Allow`, from `Lock` to `Unlock`.
* `waitCall ctx`: a new call of `Wait` begins, with context `ctx`.
* `waitStep j`: the `j`-th call of `Wait` takes its next step (`TokenBucket.WaitStep`).
* `ctxDone j e`: the context of the `j`-th call is cancelled or expires, with error `e`.
* `advance d`: `d` nanoseconds pass.
* `tickerFire`: the ticker, being due and not stopped, fires: it puts a tick in `ticker.C`
  (dropped if one is there) and moves its due time past the present by whole periods, as
  the Go runtime does for a periodic timer (`when += period * (1 + (now - when) / period)`),
  so ticks missed by a late timer are skipped, not made up.
* `refillRecv`: `refill` receives from `ticker.C`.
* `refillTick wake`: `refill` runs lines 85-95; `wake` is the suspended call of `Wait`
  that receives the send on `notifyCh`, if the send is delivered.
* `refillExit`: `refill` receives from the closed `stopCh` and returns.
* `stop`: a call of `Stop`. -/
inductive Event where
  | allow
  | waitCall (ctx : Context)
  | waitStep (j : Nat)
  | ctxDone (j : Nat) (e : CtxErr)
  | advance (d : Nat)
  | tickerFire
  | refillRecv
  | refillTick (wake : Option Nat)
  | refillExit
  | stop
deriving DecidableEq, Repr

/-- Whether some call of `Wait` is suspended in its `select` with a live context, that is,
ready to receive from `notifyCh`. -/
def Sys.anyParked (s : Sys) : Bool :=
  s.waiters.any fun w => decide (w.pc = .parked) && decide (w.ctx.err = none)

/-- One step of the system; `none` when the event cannot happen in state `s`. -/
def Sys.step (s : Sys) (ev : Event) : Option Sys :=
  if s.panicked then none else
  match ev with
  | .allow =>
    let r := s.tb.Allow
    some { s with tb := r.2, admitted := s.admitted + (if r.1 then 1 else 0) }
  | .waitCall ctx =>
    some { s with waiters := s.waiters ++ [{ pc := .entry, ctx := ctx, taken := 0 }] }
  | .waitStep j =>
    match s.waiters[j]? with
    | none => none
    | some w =>
      match s.tb.WaitStep w.ctx w.pc with
      | none => none
      | some (pc1, tb1) =>
        some { s with
          tb := tb1
          waiters := s.waiters.set j
            { w with pc := pc1, taken := w.taken + (s.tb.tokens - tb1.tokens) }
          admitted := s.admitted + (if pc1 = .done none then 1 else 0) }
  | .ctxDone j e =>
    match s.waiters[j]? with
    | none => none
    | some w =>
      if w.ctx.err = none then
        some { s with waiters := s.waiters.set j { w with ctx := { err := some e } } }
      else none
  | .advance d => some { s with now := s.now + d }
  | .tickerFire =>
    if s.tb.ticker.stopped = false ∧ s.nextTick ≤ s.now then
      some { s with
        tickPending := true
        nextTick := s.nextTick
          + s.tb.ticker.d * (1 + Int.tdiv (s.now - s.nextTick) s.tb.ticker.d)
        fired := s.fired + 1 }
    else none
  | .refillRecv =>
    if s.refill = .idle ∧ s.tickPending = true then
      some { s with refill := .ticked, tickPending := false }
    else none
  | .refillTick wake =>
    if s.refill = .ticked then
      let r := s.tb.refillTick s.anyParked
      let s1 : Sys :=
        { s with tb := r.1, refill := .idle, ticks := s.ticks + 1,
                 added := s.added + (if s.tb.tokens < s.tb.capacity then 1 else 0) }
      match r.2, wake with
      | false, none => some s1
      | true, some j =>
        match s.waiters[j]? with
        | some w =>
          if w.pc = .parked ∧ w.ctx.err = none then
            some { s1 with waiters := s.waiters.set j { w with pc := .lock } }
          else none
        | none => none
      | _, _ => none
    else none
  | .refillExit =>
    if s.refill = .idle ∧ s.tb.stopClosed = true then
      some { s with refill := .exited }
    else none
  | .stop =>
    match s.tb.Stop with
    | none => some { s with panicked := true }
    | some tb1 => some { s with tb := tb1 }

/-- Run a sequence of events from `s`; `none` if one of them cannot happen. -/
def Sys.run (s : Sys) : List Event → Option Sys
  | [] => some s
  | ev :: evs =>
    match s.step ev with
    | none => none
    | some s1 => s1.run evs

/-- The bound of the specification on the admissions within `elapsed` nanoseconds:
`capacity + floor(elapsed_seconds * rate)`, where `elapsed_seconds = elapsed / 10^9`. -/
def specBound (rate capacity elapsed : Int) : Int :=
  capacity + (elapsed * rate) / Second

/-- The bound the ticker gives: `capacity` plus the number of whole periods `d` that fit
in `elapsed` nanoseconds. -/
def tickBound (capacity d elapsed : Int) : Int :=
  capacity + elapsed / d

/-! ## Part 3: concurrent calls of `Allow`, with the mutex explicit -/

/-- Where a call of `Allow` stands, statement by statement (limiter.go, lines 40-49).
* `start`: at `tb.mu.Lock()` (line 41).
* `locked`: holds `mu`, at the test `tb.tokens > 0` (line 44).
* `dec`: holds `mu`, the test has passed, at `tb.tokens--` (line 45).
* `ret r`: holds `mu`, at `return r`; the deferred `tb.mu.Unlock()` has yet to run.
* `done r`: has returned `r`. -/
inductive AllowPc where
  | start
  | locked
  | dec
  | ret (r : Bool)
  | done (r : Bool)
deriving DecidableEq, Repr

/-- Callers racing on one bucket: the bucket, whether `mu` is held, and where each call of
`Allow` stands.  No refill tick happens during the race. -/
structure Race where
  tb : TokenBucket
  mu : Bool
  callers : List AllowPc
deriving DecidableEq, Repr

/-- The race of `n` calls of `Allow` on `tb`, none of which has started. -/
def Race.init (tb : TokenBucket) (n : Nat) : Race :=
  { tb := tb, mu := false, callers := List.replicate n .start }

/-- Caller `i` runs its next statement; `none` when it cannot (it is blocked in `Lock`
because `mu` is held, it has returned, or there is no caller `i`). -/
def Race.step (s : Race) (i : Nat) : Option Race :=
  match s.callers[i]? with
  | none => none
  | some .start =>
    if s.mu then none else some { s with mu := true, callers := s.callers.set i .locked }
  | some .locked =>
    some { s with callers := s.callers.set i (if s.tb.tokens > 0 then .dec else .ret false) }
  | some .dec =>
    some { s with tb := { s.tb with tokens := s.tb.tokens - 1 },
                  callers := s.callers.set i (.ret true) }
  | some (.ret r) =>
    some { s with mu := false, callers := s.callers.set i (.done r) }
  | some (.done _) => none

/-- Run the interleaving `sched` (which caller moves at each step) from `s`; `none` if it
schedules a caller that cannot move. -/
def Race.run (s : Race) : List Nat → Option Race
  | [] => some s
  | i :: sched =>
    match s.step i with
    | none => none
    | some s1 => s1.run sched

/-- Whether a call has returned. -/
def AllowPc.isDone : AllowPc → Bool
  | .done _ => true
  | _ => false

/-- Whether every call of the race has returned. -/
def Race.finished (s : Race) : Bool :=
  s.callers.all AllowPc.isDone

/-- The number of calls of the race that have returned `r`. -/
def Race.returned (s : Race) (r : Bool) : Nat :=
  s.callers.count (.done r)

/-- Sum of the weight `f` over the calls of a race (used to count calls by position). -/
def tally (f : AllowPc → Nat) (l : List AllowPc) : Nat :=
  (l.map f).sum

/-- Weight 1 on the positions between `Lock` and `Unlock`. -/
def AllowPc.inCS : AllowPc → Nat
  | .locked => 1
  | .dec => 1
  | .ret _ => 1
  | _ => 0

/-- Weight 1 on the position `dec`. -/
def AllowPc.atDec : AllowPc → Nat
  | .dec => 1
  | _ => 0

/-- Weight 1 on the positions of a call that has taken a token. -/
def AllowPc.won : AllowPc → Nat
  | .ret true => 1
  | .done true => 1
  | _ => 0

/-- Weight 1 on the positions of a call that has found the bucket empty. -/
def AllowPc.lost : AllowPc → Nat
  | .ret false => 1
  | .done false => 1
  | _ => 0

/-- The number of statements a call has yet to run, at most. -/
def AllowPc.togo : AllowPc → Nat
  | .start => 4
  | .locked => 3
  | .dec => 2
  | .ret _ => 1
  | .done _ => 0

/-! ## Part 4: quantities the properties are stated with -/

/-- The skew accumulated over `rate` ticks of period `d` nanoseconds: what is left of one
second after `rate` periods. -/
def skew (rate d : Int) : Int :=
  Second - rate * d

/-- The number of ticks of period `d` nanoseconds that fit in one second. -/
def ticksPerSecond (d : Int) : Int :=
  Second / d

/-- The ticks that are in flight: none once `refill` has returned; otherwise the tick
`refill` has received but not yet handled, and the tick waiting in `ticker.C`. -/
def Sys.inflight (s : Sys) : Nat :=
  if s.refill = .exited then 0
  else (if s.refill = .ticked then 1 else 0) + (if s.tickPending = true then 1 else 0)

/-- The events in which no caller takes part and no context changes: time passing, the
ticker, the refill goroutine and `Stop`. -/
def Event.isBackground : Event → Bool
  | .advance _ => true
  | .tickerFire => true
  | .refillRecv => true
  | .refillTick _ => true
  | .refillExit => true
  | .stop => true
  | _ => false

/-! ## Invariants -/

/-- The invariant of the transition system: the counter stays within its bounds, the
period is positive, tokens are accounted for (`tokens + admitted = capacity + added`),
every tick `refill` handled was fired by the ticker, and the ticker never fires early
(its `k`-th fire comes no sooner than `k` periods after its creation). -/
def Sys.Inv (s : Sys) : Prop :=
  0 ≤ s.tb.tokens ∧ s.tb.tokens ≤ s.tb.capacity ∧ 0 < s.tb.ticker.d ∧
  s.tb.tokens + (s.admitted : Int) = s.tb.capacity + (s.added : Int) ∧
  s.added ≤ s.ticks ∧
  s.ticks + (if s.refill = .ticked then 1 else 0) + (if s.tickPending = true then 1 else 0)
    ≤ s.fired ∧
  ((s.fired : Int) + 1) * s.tb.ticker.d ≤ s.nextTick ∧
  (s.fired : Int) * s.tb.ticker.d ≤ s.now

/-- What holds of a call of `Wait` at every moment: a call that has returned an error
returned its context's error and has not lowered the count; a call that has returned `nil`
has lowered the count by one; a call still running has not lowered it. -/
def Waiter.Ok (w : Waiter) : Prop :=
  match w.pc with
  | .done (some e) => w.ctx.err = some e ∧ w.taken = 0
  | .done none => w.taken = 1
  | _ => w.taken = 0

/-- The invariant of a race on a bucket that held `c` tokens when it began: `mu` is held
exactly when one call is between `Lock` and `Unlock` (and never by two), a call at
`tokens--` still sees `tokens > 0`, every token gone was taken by exactly one call, and
once a call has found the bucket empty it is empty. -/
def Race.Inv (c : Int) (s : Race) : Prop :=
  tally AllowPc.inCS s.callers = (if s.mu = true then 1 else 0) ∧
  (0 < tally AllowPc.atDec s.callers → 0 < s.tb.tokens) ∧
  s.tb.tokens + (tally AllowPc.won s.callers : Int) = c ∧
  0 ≤ s.tb.tokens ∧
  (0 < tally AllowPc.lost s.callers → s.tb.tokens = 0)

/-! ## Theorems -/

/-! ### Construction -/

/-- For a positive rate the period `New` computes is the floor of `10^9 / rate`. -/
theorem interval_eq_ediv (rate : Int) (hr : 0 < rate) : Int.tdiv Second rate = Second / rate :=
  Int.tdiv_eq_ediv (by decide) (le_of_lt hr)

/-- What `New` has checked and built when it returns a bucket. -/
theorem New_bucket_inv (rate capacity : Int) (tb : TokenBucket)
    (h : (New rate capacity).result = .bucket tb) :
    0 < rate ∧ 0 < capacity ∧ 0 < Int.tdiv Second rate ∧
      tb = { rate := rate, capacity := capacity, tokens := capacity,
             ticker := { d := Int.tdiv Second rate, stopped := false },
             stopClosed := false } := by
  unfold New at h
  split at h
  · cases h
  · rename_i hpos
    have hpos2 : 0 < rate ∧ 0 < capacity := by
      constructor
      · by_contra hc
        exact hpos (Or.inl (not_lt.mp hc))
      · by_contra hc
        exact hpos (Or.inr (not_lt.mp hc))
    unfold NewTicker at h
    by_cases hd : Int.tdiv Second rate ≤ 0
    · simp [hd] at h
    · simp [hd] at h
      exact ⟨hpos2.1, hpos2.2, not_le.mp hd, h.symm⟩

/-- The rates for which `New` gets a positive period. -/
theorem interval_pos_iff (rate : Int) (hr : 0 < rate) :
    0 < Int.tdiv Second rate ↔ rate ≤ Second := by
  rw [interval_eq_ediv rate hr]
  constructor
  · intro h
    by_contra hc
    have hlt : Second < rate := not_le.mp hc
    have h0 : Second / rate = 0 := Int.ediv_eq_zero_of_lt (by decide) hlt
    omega
  · intro h
    have h1 : (1 : Int) ≤ Second / rate := Int.le_ediv_of_mul_le hr (by omega)
    omega

/-- `New` refuses exactly the pairs with a non-positive component. -/
theorem New_null_iff (rate capacity : Int) :
    (New rate capacity).result = .null ↔ (rate ≤ 0 ∨ capacity ≤ 0) := by
  constructor
  · intro h
    by_contra hc
    unfold New at h
    rw [if_neg hc] at h
    unfold NewTicker at h
    by_cases hd : Int.tdiv Second rate ≤ 0
    · simp [hd] at h
    · simp [hd] at h
  · intro h
    unfold New
    rw [if_pos h]

/-! ### `Allow` -/

/-- A call of `Allow` on a bucket that holds a token. -/
theorem Allow_pos (tb : TokenBucket) (h : 0 < tb.tokens) :
    tb.Allow = (true, { tb with tokens := tb.tokens - 1 }) := by
  unfold TokenBucket.Allow
  rw [if_pos h]

/-- A call of `Allow` on a bucket that holds no token. -/
theorem Allow_nonpos (tb : TokenBucket) (h : tb.tokens ≤ 0) : tb.Allow = (false, tb) := by
  unfold TokenBucket.Allow
  rw [if_neg (not_lt.mpr h)]

/-- A run of `n + 1` calls on a bucket holding `n` tokens: `n` successes, then a refusal. -/
theorem allowRun_exhaust (n : Nat) :
    ∀ tb : TokenBucket, tb.tokens = (n : Int) →
      (allowRun (n + 1) tb).1 = List.replicate n true ++ [false] := by
  induction n with
  | zero =>
    intro tb h
    have h0 : tb.tokens ≤ 0 := by simp [h]
    simp [allowRun, Allow_nonpos tb h0]
  | succ k ih =>
    intro tb h
    have hpos : 0 < tb.tokens := by rw [h]; positivity
    have hk : ({ tb with tokens := tb.tokens - 1 } : TokenBucket).tokens = (k : Int) := by
      simp [h]
    have := ih _ hk
    rw [allowRun, Allow_pos tb hpos]
    simp only [this, List.replicate_succ, List.cons_append]

/-- A tick handled by `refill` when the bucket is not full. -/
theorem refillTick_lt (tb : TokenBucket) (b : Bool) (h : tb.tokens < tb.capacity) :
    tb.refillTick b = ({ tb with tokens := tb.tokens + 1 }, b) := by
  unfold TokenBucket.refillTick
  rw [if_pos h]

/-- A tick handled by `refill` when the bucket is full. -/
theorem refillTick_full (tb : TokenBucket) (b : Bool) (h : ¬ tb.tokens < tb.capacity) :
    tb.refillTick b = (tb, false) := by
  unfold TokenBucket.refillTick
  rw [if_neg h]

/-- Ticks keep a bucket of capacity 1 that holds at most one token at exactly one token. -/
theorem tickRun_cap_one (n : Nat) :
    ∀ tb : TokenBucket, tb.capacity = 1 → (tb.tokens = 0 ∨ tb.tokens = 1) →
      (tickRun (n + 1) tb).tokens = 1 := by
  induction n with
  | zero =>
    intro tb hc ht
    rcases ht with ht | ht
    · have hlt : tb.tokens < tb.capacity := by omega
      simp [tickRun, refillTick_lt tb false hlt, ht]
    · have hge : ¬ tb.tokens < tb.capacity := by omega
      simp [tickRun, refillTick_full tb false hge, ht]
  | succ k ih =>
    intro tb hc ht
    rw [tickRun]
    rcases ht with ht | ht
    · have hlt : tb.tokens < tb.capacity := by omega
      rw [refillTick_lt tb false hlt]
      exact ih _ hc (Or.inr (by simp [ht]))
    · have hge : ¬ tb.tokens < tb.capacity := by omega
      rw [refillTick_full tb false hge]
      exact ih _ hc (Or.inr ht)

/-! ### Claims about the sequential code -/

/-- C1 (capacity bound): if `New rate capacity` returns a bucket, then of `capacity + 1`
consecutive calls of `Allow` made on it with no refill tick in between, the first
`capacity` return `true` and the last one returns `false`. -/
theorem allow_capacity_bound (rate capacity : Int) (tb : TokenBucket)
    (_hr : 0 < rate) (_hc : 0 < capacity)
    (hnew : (New rate capacity).result = .bucket tb) :
    (allowRun (capacity.toNat + 1) tb).1 = List.replicate capacity.toNat true ++ [false] := by
  obtain ⟨_, _, _, htb⟩ := New_bucket_inv rate capacity tb hnew
  apply allowRun_exhaust
  rw [htb]
  simp only
  omega

/-- C1, at the test `TestAllowBasic`: `New(10, 5)`, then `true` five times, then `false`. -/
theorem allow_capacity_bound_witness :
    (New 10 5).result = .bucket ⟨10, 5, 5, ⟨100000000, false⟩, false⟩ ∧
    (allowRun ((5 : Int).toNat + 1) ⟨10, 5, 5, ⟨100000000, false⟩, false⟩).1
      = List.replicate (5 : Int).toNat true ++ [false] :=
  ⟨by decide, allow_capacity_bound 10 5 _ (by decide) (by decide) (by decide)⟩

/-- C3 (contract of `Allow`): on a bucket with `tokens > 0` the call returns `true` and
leaves `tokens - 1`; on a bucket with `tokens = 0` it returns `false` and leaves the count
as it is.  The result is a plain flag (no error value), and in both cases rate, capacity,
ticker and stop channel are untouched. -/
theorem allow_contract (tb : TokenBucket) :
    (0 < tb.tokens → tb.Allow.1 = true ∧ tb.Allow.2.tokens = tb.tokens - 1) ∧
    (tb.tokens = 0 → tb.Allow.1 = false ∧ tb.Allow.2.tokens = tb.tokens) ∧
    tb.Allow.2 = { tb with tokens := tb.Allow.2.tokens } := by
  refine ⟨?_, ?_, ?_⟩
  · intro h
    rw [Allow_pos tb h]
    exact ⟨rfl, rfl⟩
  · intro h
    rw [Allow_nonpos tb (le_of_eq h)]
    exact ⟨rfl, rfl⟩
  · by_cases h : 0 < tb.tokens
    · rw [Allow_pos tb h]
    · rw [Allow_nonpos tb (not_lt.mp h)]

/-- C3, on a bucket with two tokens and on an empty one. -/
theorem allow_contract_witness :
    ((⟨10, 5, 2, ⟨100000000, false⟩, false⟩ : TokenBucket).Allow
        = (true, ⟨10, 5, 1, ⟨100000000, false⟩, false⟩)) ∧
    ((⟨10, 5, 0, ⟨100000000, false⟩, false⟩ : TokenBucket).Allow.1 = false ∧
      (⟨10, 5, 0, ⟨100000000, false⟩, false⟩ : TokenBucket).Allow.2.tokens = 0) :=
  ⟨by decide, (allow_contract ⟨10, 5, 0, ⟨100000000, false⟩, false⟩).2.1 rfl⟩

/-- C4 (construction success) fails on the code at `New(1000000001, 1)`: the period
`time.Second / time.Duration(rate)` is 0, `time.NewTicker` panics, and no bucket is
returned although rate and capacity are both positive. -/
theorem new_panics_at_large_rate :
    (0 : Int) < 1000000001 ∧ (0 : Int) < 1 ∧
    New 1000000001 1 = { result := .panic, effects := [] } := by
  decide

/-- C5 (construction failure): if `rate <= 0` or `capacity <= 0`, `New` returns `nil` and
has created neither a ticker nor the refill goroutine; and `New` returns `nil` only for
such pairs. -/
theorem new_failure (rate capacity : Int) :
    ((rate ≤ 0 ∨ capacity ≤ 0) → New rate capacity = { result := .null, effects := [] }) ∧
    ((New rate capacity).result = .null → (rate ≤ 0 ∨ capacity ≤ 0)) := by
  constructor
  · intro h
    unfold New
    rw [if_pos h]
  · exact (New_null_iff rate capacity).mp

/-- C5, at `New(0, 5)` and `New(5, -1)`. -/
theorem new_failure_witness :
    New 0 5 = { result := .null, effects := [] } ∧
    New 5 (-1) = { result := .null, effects := [] } :=
  ⟨(new_failure 0 5).1 (Or.inl (by decide)), (new_failure 5 (-1)).1 (Or.inr (by decide))⟩

/-- Overwriting the last entry of a list of calls that was just extended by one. -/
theorem set_append_length (l : List Waiter) (w v : Waiter) :
    (l ++ [w]).set l.length v = l ++ [v] := by
  induction l with
  | nil => rfl
  | cons x xs ih => simp [ih]

/-- C6 (cancellation immediacy): in every state of the bucket, whatever `tokens` is, a call
of `Wait` whose context is already done returns in its first step with that context's
error; the call ends having lowered the count by 0, and the bucket and the rest of the
system are exactly as before the call. -/
theorem wait_cancelled_immediate (s : Sys) (ctx : Context) (e : CtxErr)
    (hp : s.panicked = false) (h : ctx.err = some e) :
    s.tb.WaitStep ctx .entry = some (.done (some e), s.tb) ∧
    s.run [.waitCall ctx, .waitStep s.waiters.length]
      = some { s with
          waiters := s.waiters ++ [{ pc := .done (some e), ctx := ctx, taken := 0 }] } := by
  have h1 : s.tb.WaitStep ctx .entry = some (.done (some e), s.tb) := by
    simp [TokenBucket.WaitStep, h]
  refine ⟨h1, ?_⟩
  simp [Sys.run, Sys.step, hp, h1, set_append_length]

/-- C6, at the test `TestWaitWithContextCancel`: `New(10, 1)`, one `Allow`, then `Wait` with
a cancelled context returns `context.Canceled`. -/
theorem wait_cancelled_immediate_witness :
    (New 10 1).result = .bucket ⟨10, 1, 1, ⟨100000000, false⟩, false⟩ ∧
    (Sys.init ⟨10, 1, 1, ⟨100000000, false⟩, false⟩).run
        [.allow, .waitCall ⟨some .Canceled⟩, .waitStep 0]
      = some
        { tb := ⟨10, 1, 0, ⟨100000000, false⟩, false⟩,
          waiters := [⟨.done (some .Canceled), ⟨some .Canceled⟩, 0⟩],
          refill := .idle, tickPending := false, now := 0, nextTick := 100000000,
          panicked := false, admitted := 1, fired := 0, ticks := 0, added := 0 } ∧
    (⟨10, 1, 0, ⟨100000000, false⟩, false⟩ : TokenBucket).WaitStep ⟨some .Canceled⟩ .entry
      = some (.done (some .Canceled), ⟨10, 1, 0, ⟨100000000, false⟩, false⟩) :=
  ⟨by decide, by decide,
    (wait_cancelled_immediate
      { tb := ⟨10, 1, 0, ⟨100000000, false⟩, false⟩, waiters := [],
        refill := .idle, tickPending := false, now := 0, nextTick := 100000000,
        panicked := false, admitted := 1, fired := 0, ticks := 0, added := 0 }
      ⟨some .Canceled⟩ .Canceled rfl rfl).1⟩

/-- The period `New` computes is at most `1s / rate`: `rate` periods fit in one second. -/
theorem interval_mul_le (rate : Int) (hr : 0 < rate) : Int.tdiv Second rate * rate ≤ Second := by
  rw [interval_eq_ediv rate hr]
  exact Int.ediv_mul_le Second (ne_of_gt hr)

/-- C8 (refill timing): on a bucket returned by `New R 1` the first `Allow` returns `true`
and a second one, with no tick in between, returns `false`.  The period `d` of the ticker is
positive and at most `1s / R` (`d * R <= 10^9`), so once `e >= 1s / R` nanoseconds have
elapsed the first tick is due: the ticker can fire, and after `refill` has handled the tick
(or any larger number of ticks) the next `Allow` returns `true`. -/
theorem refill_timing (R : Int) (tb : TokenBucket) (hnew : (New R 1).result = .bucket tb) :
    tb.Allow.1 = true ∧
    tb.Allow.2.Allow.1 = false ∧
    (∀ n : Nat, (tickRun (n + 1) tb.Allow.2.Allow.2).Allow.1 = true) ∧
    0 < tb.ticker.d ∧ tb.ticker.d * R ≤ Second ∧
    (∀ e : Nat, Second ≤ (e : Int) * R →
      ∃ s, (Sys.init tb).run
          [.allow, .allow, .advance e, .tickerFire, .refillRecv, .refillTick none, .allow]
            = some s ∧ s.admitted = 2 ∧ s.now = e) := by
  obtain ⟨hR, _, hd, htb⟩ := New_bucket_inv R 1 tb hnew
  have hmul := interval_mul_le R hR
  subst htb
  refine ⟨by simp [TokenBucket.Allow], by simp [TokenBucket.Allow], ?_, hd, hmul, ?_⟩
  · intro n
    have h1 := tickRun_cap_one n
      ({ rate := R, capacity := 1, tokens := 0,
         ticker := { d := Int.tdiv Second R, stopped := false }, stopClosed := false })
      rfl (Or.inl rfl)
    have h2 : (TokenBucket.Allow (TokenBucket.Allow
        { rate := R, capacity := 1, tokens := 1,
          ticker := { d := Int.tdiv Second R, stopped := false },
          stopClosed := false }).2).2
        = { rate := R, capacity := 1, tokens := 0,
            ticker := { d := Int.tdiv Second R, stopped := false }, stopClosed := false } := by
      simp [TokenBucket.Allow]
    rw [h2]
    rw [Allow_pos _ (by rw [h1]; decide)]
  · intro e he
    have hde : Int.tdiv Second R ≤ (e : Int) := by
      by_contra hc
      have hlt : (e : Int) < Int.tdiv Second R := not_le.mp hc
      have : (e : Int) * R < Int.tdiv Second R * R := Int.mul_lt_mul_of_pos_right hlt hR
      omega
    simp [Sys.run, Sys.step, Sys.init, TokenBucket.Allow, TokenBucket.refillTick,
      Sys.anyParked, hde]

/-- C8, at the test `TestRefill`: `New(10, 1)`, whose ticker has a period of 100 ms. -/
theorem refill_timing_witness :
    (New 10 1).result = .bucket ⟨10, 1, 1, ⟨100000000, false⟩, false⟩ ∧
    (⟨10, 1, 1, ⟨100000000, false⟩, false⟩ : TokenBucket).Allow.1 = true ∧
    (⟨10, 1, 1, ⟨100000000, false⟩, false⟩ : TokenBucket).Allow.2.Allow.1 = false ∧
    (tickRun (0 + 1)
      (⟨10, 1, 1, ⟨100000000, false⟩, false⟩ : TokenBucket).Allow.2.Allow.2).Allow.1 = true ∧
    (∃ s, (Sys.init ⟨10, 1, 1, ⟨100000000, false⟩, false⟩).run
        [.allow, .allow, .advance 101000000, .tickerFire, .refillRecv, .refillTick none,
          .allow] = some s ∧ s.admitted = 2 ∧ s.now = (101000000 : Nat)) :=
  have h := refill_timing 10 ⟨10, 1, 1, ⟨100000000, false⟩, false⟩ (by decide)
  ⟨by decide, h.1, h.2.1, h.2.2.1 0, h.2.2.2.2.2 101000000 (by decide)⟩


/-! ### Invariants of the transition system -/

/-- `Allow` changes no field of the bucket other than `tokens`. -/
theorem Allow_fixed (tb : TokenBucket) :
    tb.Allow.2.rate = tb.rate ∧ tb.Allow.2.capacity = tb.capacity ∧
      tb.Allow.2.ticker = tb.ticker ∧ tb.Allow.2.stopClosed = tb.stopClosed := by
  unfold TokenBucket.Allow
  split <;> simp

/-- A step of `Wait` changes no field other than `tokens`; it lowers `tokens`, by one, exactly
when it is the step that returns `nil`, which is taken at `lock` with `tokens > 0`. -/
theorem WaitStep_fixed {tb tb1 : TokenBucket} {ctx : Context} {pc pc1 : WaitPc}
    (h : tb.WaitStep ctx pc = some (pc1, tb1)) :
    tb1.rate = tb.rate ∧ tb1.capacity = tb.capacity ∧ tb1.ticker = tb.ticker ∧
      tb1.stopClosed = tb.stopClosed ∧
      ((pc1 = .done none ∧ 0 < tb.tokens ∧ tb1.tokens = tb.tokens - 1 ∧ pc = .lock) ∨
       (pc1 ≠ .done none ∧ tb1 = tb)) := by
  unfold TokenBucket.WaitStep at h
  split at h
  · split at h <;> simp at h <;> (obtain ⟨h1, h2⟩ := h; subst h1; subst h2; simp)
  · split at h <;> simp at h <;> (obtain ⟨h1, h2⟩ := h; subst h1; subst h2; simp)
    assumption
  · split at h <;> simp at h <;> (obtain ⟨h1, h2⟩ := h; subst h1; subst h2; simp)
  · split at h <;> simp at h
    obtain ⟨h1, h2⟩ := h
    subst h1
    subst h2
    simp
  · simp at h

/-- A refill tick changes no field of the bucket other than `tokens`. -/
theorem refillTick_fixed (tb : TokenBucket) (b : Bool) :
    (tb.refillTick b).1.rate = tb.rate ∧ (tb.refillTick b).1.capacity = tb.capacity ∧
      (tb.refillTick b).1.ticker = tb.ticker ∧
      (tb.refillTick b).1.stopClosed = tb.stopClosed := by
  unfold TokenBucket.refillTick
  split <;> simp

/-- A call of `Stop` that does not panic: the stop channel was open, is now closed, the ticker
is stopped, and rate, capacity, tokens and period are as before. -/
theorem Stop_fixed {tb tb1 : TokenBucket} (h : tb.Stop = some tb1) :
    tb1.rate = tb.rate ∧ tb1.capacity = tb.capacity ∧ tb1.tokens = tb.tokens ∧
      tb1.ticker.d = tb.ticker.d ∧ tb1.ticker.stopped = true ∧ tb1.stopClosed = true ∧
      tb.stopClosed = false := by
  unfold TokenBucket.Stop at h
  simp only at h
  split at h
  · cases h
  · cases h
    simp_all

/-- The two outcomes of `Allow`, by the token count it finds. -/
theorem Allow_tokens (tb : TokenBucket) :
    (tb.Allow.1 = true ∧ 0 < tb.tokens ∧ tb.Allow.2.tokens = tb.tokens - 1) ∨
    (tb.Allow.1 = false ∧ tb.tokens ≤ 0 ∧ tb.Allow.2.tokens = tb.tokens) := by
  unfold TokenBucket.Allow
  split
  · left; simp; assumption
  · right; simp; omega

/-- The two outcomes of a refill tick, by the token count it finds. -/
theorem refillTick_tokens (tb : TokenBucket) (b : Bool) :
    (tb.tokens < tb.capacity ∧ (tb.refillTick b).1.tokens = tb.tokens + 1) ∨
    (¬ tb.tokens < tb.capacity ∧ (tb.refillTick b).1.tokens = tb.tokens) := by
  unfold TokenBucket.refillTick
  split
  · left; simp; assumption
  · right; simp; omega

/-- No step of the system changes rate, capacity or the period of the ticker. -/
theorem sys_step_fixed {s s1 : Sys} {ev : Event} (hs : s.step ev = some s1) :
    s1.tb.rate = s.tb.rate ∧ s1.tb.capacity = s.tb.capacity ∧ s1.tb.ticker.d = s.tb.ticker.d := by
  unfold Sys.step at hs
  split at hs
  · cases hs
  · cases ev <;> simp only [] at hs
    case allow =>
      cases hs
      have := Allow_fixed s.tb
      simp [this]
    case waitCall ctx => cases hs; simp
    case waitStep j =>
      split at hs
      · cases hs
      · split at hs
        · cases hs
        · rename_i h
          cases hs
          have := WaitStep_fixed h
          simp [this]
    case ctxDone j e =>
      split at hs
      · cases hs
      · split at hs
        · cases hs; simp
        · cases hs
    case advance d => cases hs; simp
    case tickerFire =>
      split at hs
      · cases hs; simp
      · cases hs
    case refillRecv =>
      split at hs
      · cases hs; simp
      · cases hs
    case refillTick wake =>
      have hf := refillTick_fixed s.tb s.anyParked
      split at hs
      · split at hs
        · cases hs; simp [hf]
        · split at hs
          · split at hs
            · cases hs; simp [hf]
            · cases hs
          · cases hs
        · cases hs
      · cases hs
    case refillExit =>
      split at hs
      · cases hs; simp
      · cases hs
    case stop =>
      split at hs
      · cases hs; simp
      · rename_i h
        cases hs
        have := Stop_fixed h
        simp [this]

/-- Every step of the system keeps the invariant `Sys.Inv`. -/
theorem sys_step_inv {s s1 : Sys} {ev : Event} (hi : s.Inv) (hs : s.step ev = some s1) :
    s1.Inv := by
  unfold Sys.Inv at hi ⊢
  obtain ⟨h1, h2, h3, h4, h5, h6, h7, h8⟩ := hi
  unfold Sys.step at hs
  split at hs
  · cases hs
  · cases ev <;> simp only [] at hs
    case allow =>
      cases hs
      have hf := Allow_fixed s.tb
      have ht := Allow_tokens s.tb
      simp only [hf]
      rcases ht with ⟨ha, hb, hc⟩ | ⟨ha, hb, hc⟩
      · simp only [ha, hc]
        refine ⟨by omega, by omega, h3, by push_cast; omega, h5, h6, h7, h8⟩
      · simp only [ha, hc]
        refine ⟨by omega, by omega, h3, by simpa using h4, h5, h6, h7, h8⟩
    case waitCall ctx => cases hs; exact ⟨h1, h2, h3, h4, h5, h6, h7, h8⟩
    case waitStep j =>
      split at hs
      · cases hs
      · split at hs
        · cases hs
        · rename_i h
          cases hs
          obtain ⟨f1, f2, f3, f4, hc⟩ := WaitStep_fixed h
          simp only [f2, f3]
          rcases hc with ⟨ha, hb, hc, _⟩ | ⟨ha, hb⟩
          · simp only [ha, hc]
            refine ⟨by omega, by omega, h3, by push_cast; omega, h5, h6, h7, h8⟩
          · subst hb
            simp only [ha]
            refine ⟨h1, h2, h3, by simpa using h4, h5, h6, h7, h8⟩
    case ctxDone j e =>
      split at hs
      · cases hs
      · split at hs
        · cases hs; exact ⟨h1, h2, h3, h4, h5, h6, h7, h8⟩
        · cases hs
    case advance d =>
      cases hs
      refine ⟨h1, h2, h3, h4, h5, h6, h7, ?_⟩
      simp only
      omega
    case tickerFire =>
      split at hs
      · rename_i hg
        cases hs
        refine ⟨h1, h2, h3, h4, h5, ?_, ?_, ?_⟩
        · simp only
          by_cases hr : s.refill = .ticked <;> by_cases hp : s.tickPending = true <;>
            simp [hr, hp] at h6 ⊢ <;> omega
        · simp only
          have hq : 0 ≤ Int.tdiv (s.now - s.nextTick) s.tb.ticker.d :=
            Int.tdiv_nonneg (by omega) (le_of_lt h3)
          have hm : 0 ≤ s.tb.ticker.d * Int.tdiv (s.now - s.nextTick) s.tb.ticker.d :=
            Int.mul_nonneg (le_of_lt h3) hq
          push_cast
          nlinarith
        · simp only
          push_cast
          exact le_trans h7 hg.2
      · cases hs
    case refillRecv =>
      split at hs
      · rename_i hg
        cases hs
        refine ⟨h1, h2, h3, h4, h5, ?_, h7, h8⟩
        simp only
        simp [hg.1, hg.2] at h6 ⊢
        omega
      · cases hs
    case refillTick wake =>
      have hf := refillTick_fixed s.tb s.anyParked
      have ht := refillTick_tokens s.tb s.anyParked
      have key : s.refill = .ticked →
          0 ≤ (s.tb.refillTick s.anyParked).1.tokens ∧
          (s.tb.refillTick s.anyParked).1.tokens ≤ s.tb.capacity ∧
          (s.tb.refillTick s.anyParked).1.tokens + (s.admitted : Int)
            = s.tb.capacity + ((s.added + (if s.tb.tokens < s.tb.capacity then 1 else 0) : Nat) : Int) ∧
          s.added + (if s.tb.tokens < s.tb.capacity then 1 else 0) ≤ s.ticks + 1 ∧
          s.ticks + 1 + (if RefillPc.idle = RefillPc.ticked then 1 else 0)
            + (if s.tickPending = true then 1 else 0) ≤ s.fired := by
        intro hr
        simp only [hr, if_true] at h6
        rcases ht with ⟨ha, hb⟩ | ⟨ha, hb⟩
        · simp only [hb, if_pos ha]
          refine ⟨by omega, by omega, by push_cast; omega, by omega, ?_⟩
          simp
          omega
        · simp only [hb, if_neg ha]
          refine ⟨by omega, by omega, by push_cast; omega, by omega, ?_⟩
          simp
          omega
      split at hs
      · rename_i hr
        obtain ⟨k1, k2, k3, k4, k5⟩ := key hr
        split at hs
        · cases hs
          simp only [hf]
          exact ⟨k1, k2, h3, k3, k4, k5, h7, h8⟩
        · split at hs
          · split at hs
            · cases hs
              simp only [hf]
              exact ⟨k1, k2, h3, k3, k4, k5, h7, h8⟩
            · cases hs
          · cases hs
        · cases hs
      · cases hs
    case refillExit =>
      split at hs
      · rename_i hg
        cases hs
        refine ⟨h1, h2, h3, h4, h5, ?_, h7, h8⟩
        simp only
        simp [hg.1] at h6 ⊢
        exact h6
      · cases hs
    case stop =>
      split at hs
      · cases hs; exact ⟨h1, h2, h3, h4, h5, h6, h7, h8⟩
      · rename_i h
        cases hs
        obtain ⟨f1, f2, f3, f4, _⟩ := Stop_fixed h
        simp only [f2, f3, f4]
        exact ⟨h1, h2, h3, h4, h5, h6, h7, h8⟩

/-- Every run of the system keeps the invariant and the fixed fields of the bucket. -/
theorem sys_run_inv (evs : List Event) :
    ∀ s s1 : Sys, s.Inv → s.run evs = some s1 →
      s1.Inv ∧ s1.tb.rate = s.tb.rate ∧ s1.tb.capacity = s.tb.capacity ∧
        s1.tb.ticker.d = s.tb.ticker.d := by
  induction evs with
  | nil =>
    intro s s1 hi hr
    simp only [Sys.run, Option.some.injEq] at hr
    subst hr
    exact ⟨hi, rfl, rfl, rfl⟩
  | cons ev evs ih =>
    intro s s1 hi hr
    simp only [Sys.run] at hr
    split at hr
    · cases hr
    · rename_i s2 hstep
      obtain ⟨a, b, c, d⟩ := ih s2 s1 (sys_step_inv hi hstep) hr
      obtain ⟨f1, f2, f3⟩ := sys_step_fixed hstep
      exact ⟨a, by rw [b, f1], by rw [c, f2], by rw [d, f3]⟩

/-- The invariant holds right after `New` has returned a bucket. -/
theorem sys_init_inv (rate capacity : Int) (tb : TokenBucket)
    (h : (New rate capacity).result = .bucket tb) : (Sys.init tb).Inv := by
  obtain ⟨_, hc, hd, htb⟩ := New_bucket_inv rate capacity tb h
  subst htb
  unfold Sys.Inv Sys.init
  simp
  exact ⟨le_of_lt hc, hd⟩

/-- Every step of the system keeps `Waiter.Ok` for all calls of `Wait`. -/
theorem sys_step_waiters {s s1 : Sys} {ev : Event} (hi : ∀ w ∈ s.waiters, w.Ok)
    (hs : s.step ev = some s1) : ∀ w ∈ s1.waiters, w.Ok := by
  unfold Sys.step at hs
  split at hs
  · cases hs
  · cases ev <;> simp only [] at hs
    case allow => cases hs; exact hi
    case waitCall ctx =>
      cases hs
      intro w hw
      simp only [List.mem_append, List.mem_singleton] at hw
      rcases hw with hw | hw
      · exact hi w hw
      · subst hw
        simp [Waiter.Ok]
    case waitStep j =>
      split at hs
      · cases hs
      · rename_i w0 hj
        split at hs
        · cases hs
        · rename_i pc1 tb1 h
          cases hs
          intro w hw
          rcases List.mem_or_eq_of_mem_set hw with hw | hw
          · exact hi w hw
          · subst hw
            have h0 := hi w0 (List.getElem?_mem hj)
            unfold TokenBucket.WaitStep at h
            unfold Waiter.Ok at h0 ⊢
            split at h
            · split at h <;> simp at h <;> (obtain ⟨h1, h2⟩ := h; subst h1; subst h2; simp_all)
            · split at h <;> simp at h <;> (obtain ⟨h1, h2⟩ := h; subst h1; subst h2; simp_all)
            · split at h <;> simp at h <;> (obtain ⟨h1, h2⟩ := h; subst h1; subst h2; simp_all)
            · split at h <;> simp at h
              obtain ⟨h1, h2⟩ := h
              subst h1
              subst h2
              simp_all
            · simp at h
    case ctxDone j e =>
      split at hs
      · cases hs
      · rename_i w0 hj
        split at hs
        · rename_i hlive
          cases hs
          intro w hw
          rcases List.mem_or_eq_of_mem_set hw with hw | hw
          · exact hi w hw
          · subst hw
            have h0 := hi w0 (List.getElem?_mem hj)
            unfold Waiter.Ok at h0 ⊢
            simp only
            split <;> simp_all
        · cases hs
    case advance d => cases hs; exact hi
    case tickerFire =>
      split at hs
      · cases hs; exact hi
      · cases hs
    case refillRecv =>
      split at hs
      · cases hs; exact hi
      · cases hs
    case refillTick wake =>
      split at hs
      · split at hs
        · cases hs; exact hi
        · split at hs
          · rename_i w0 hj
            split at hs
            · rename_i hp
              cases hs
              intro w hw
              rcases List.mem_or_eq_of_mem_set hw with hw | hw
              · exact hi w hw
              · subst hw
                have h0 := hi w0 (List.getElem?_mem hj)
                unfold Waiter.Ok at h0 ⊢
                simp_all
            · cases hs
          · cases hs
        · cases hs
      · cases hs
    case refillExit =>
      split at hs
      · cases hs; exact hi
      · cases hs
    case stop =>
      split at hs
      · cases hs; exact hi
      · cases hs; exact hi

/-- Every run of the system keeps `Waiter.Ok` for all calls of `Wait`. -/
theorem sys_run_waiters (evs : List Event) :
    ∀ s s1 : Sys, (∀ w ∈ s.waiters, w.Ok) → s.run evs = some s1 → ∀ w ∈ s1.waiters, w.Ok := by
  induction evs with
  | nil =>
    intro s s1 hi hr
    simp only [Sys.run, Option.some.injEq] at hr
    subst hr
    exact hi
  | cons ev evs ih =>
    intro s s1 hi hr
    simp only [Sys.run] at hr
    split at hr
    · cases hr
    · rename_i s2 hstep
      exact ih s2 s1 (sys_step_waiters hi hstep) hr

/-! ### Claims about the transition system -/

/-- C2 (token-count invariant): in every state reached from a bucket returned by `New`
through any sequence of `Allow` calls, steps of `Wait` calls, cancellations, ticker fires,
refill ticks, passages of time and `Stop`, the counter satisfies
`0 <= tokens <= capacity`, and `capacity` is still the value given to `New`. -/
theorem tokens_invariant (rate capacity : Int) (tb : TokenBucket) (evs : List Event) (s : Sys)
    (hnew : (New rate capacity).result = .bucket tb)
    (hrun : (Sys.init tb).run evs = some s) :
    0 ≤ s.tb.tokens ∧ s.tb.tokens ≤ s.tb.capacity ∧ s.tb.capacity = capacity := by
  obtain ⟨hi, _, hc, _⟩ := sys_run_inv evs _ s (sys_init_inv rate capacity tb hnew) hrun
  obtain ⟨_, _, _, htb⟩ := New_bucket_inv rate capacity tb hnew
  refine ⟨hi.1, hi.2.1, ?_⟩
  rw [hc, htb]
  rfl

/-- C2, on `New(10, 2)`: an `Allow`, a `Wait` that takes a token, a refill tick after
100 ms, then `Stop`. -/
theorem tokens_invariant_witness :
    (New 10 2).result = .bucket ⟨10, 2, 2, ⟨100000000, false⟩, false⟩ ∧
    (Sys.init ⟨10, 2, 2, ⟨100000000, false⟩, false⟩).run
        [.allow, .waitCall ⟨none⟩, .waitStep 0, .waitStep 0, .advance 100000000,
          .tickerFire, .refillRecv, .refillTick none, .stop]
      = some
        { tb := ⟨10, 2, 1, ⟨100000000, true⟩, true⟩,
          waiters := [⟨.done none, ⟨none⟩, 1⟩], refill := .idle, tickPending := false,
          now := 100000000, nextTick := 200000000, panicked := false, admitted := 2,
          fired := 1, ticks := 1, added := 1 } ∧
    ((0 : Int) ≤ 1 ∧ (1 : Int) ≤ 2 ∧ (2 : Int) = 2) :=
  ⟨by decide, by decide,
    tokens_invariant 10 2 ⟨10, 2, 2, ⟨100000000, false⟩, false⟩
      [.allow, .waitCall ⟨none⟩, .waitStep 0, .waitStep 0, .advance 100000000,
        .tickerFire, .refillRecv, .refillTick none, .stop]
      { tb := ⟨10, 2, 1, ⟨100000000, true⟩, true⟩,
        waiters := [⟨.done none, ⟨none⟩, 1⟩], refill := .idle, tickPending := false,
        now := 100000000, nextTick := 200000000, panicked := false, admitted := 2,
        fired := 1, ticks := 1, added := 1 }
      (by decide) (by decide)⟩

/-- C7 as stated fails on the code.  `New(3, 1)` gives the ticker a period of
333333333 ns, so three ticks fit in 999999999 ns, less than a second: with an `Allow` at
time 0 and one after each tick there are 4 successful admissions within 999999999 ns,
while `capacity + floor(elapsed_seconds * rate) = 1 + floor(2.999999997) = 3`. -/
theorem no_leakage_counterexample :
    (New 3 1).result = .bucket ⟨3, 1, 1, ⟨333333333, false⟩, false⟩ ∧
    ((Sys.init ⟨3, 1, 1, ⟨333333333, false⟩, false⟩).run
        [.allow,
          .advance 333333333, .tickerFire, .refillRecv, .refillTick none, .allow,
          .advance 333333333, .tickerFire, .refillRecv, .refillTick none, .allow,
          .advance 333333333, .tickerFire, .refillRecv, .refillTick none, .allow]).map
        (fun s => (s.admitted, s.now)) = some (4, 999999999) ∧
    specBound 3 1 999999999 = 3 ∧
    ¬ ((4 : Int) ≤ specBound 3 1 999999999) := by
  decide

/-- C7, amended: along every run from a bucket returned by `New rate capacity`, the number
of successful admissions (`Allow` returning `true` plus `Wait` returning `nil`) within the
elapsed time `now` never exceeds `capacity` plus the number of whole ticker periods in
`now`, the period being `floor(10^9 / rate)` ns; whenever `rate` divides `10^9` this is
at most the specification's bound `capacity + floor(elapsed_seconds * rate)`. -/
theorem admissions_tick_bound (rate capacity : Int) (tb : TokenBucket) (evs : List Event)
    (s : Sys) (hnew : (New rate capacity).result = .bucket tb)
    (hrun : (Sys.init tb).run evs = some s) :
    tb.ticker.d = Second / rate ∧
    (s.admitted : Int) ≤ tickBound capacity tb.ticker.d s.now ∧
    (rate ∣ Second → (s.admitted : Int) ≤ specBound rate capacity s.now) := by
  obtain ⟨hi, _, hc, hd⟩ := sys_run_inv evs _ s (sys_init_inv rate capacity tb hnew) hrun
  obtain ⟨hr, _, hdpos, htb⟩ := New_bucket_inv rate capacity tb hnew
  have hcap : s.tb.capacity = capacity := by rw [hc, htb]; rfl
  have hper : tb.ticker.d = Second / rate := by
    rw [htb]
    exact interval_eq_ediv rate hr
  have hdd : s.tb.ticker.d = tb.ticker.d := by rw [hd]; rfl
  obtain ⟨h1, _, h3, h4, h5, h6, _, h8⟩ := hi
  rw [hdd] at h3 h8
  rw [hcap] at h4
  have hticks : s.ticks ≤ s.fired := by omega
  have hadm : (s.admitted : Int) ≤ capacity + (s.fired : Int) := by omega
  refine ⟨hper, ?_, ?_⟩
  · unfold tickBound
    have : (s.fired : Int) ≤ s.now / tb.ticker.d := Int.le_ediv_of_mul_le h3 h8
    omega
  · intro hdvd
    unfold specBound
    have hmul : tb.ticker.d * rate = Second := by
      rw [hper]
      exact Int.ediv_mul_cancel hdvd
    have h9 : (s.fired : Int) * Second ≤ s.now * rate := by
      have := Int.mul_le_mul_of_nonneg_right h8 (le_of_lt hr)
      calc (s.fired : Int) * Second = (s.fired : Int) * tb.ticker.d * rate := by
            rw [← hmul]; ring
        _ ≤ s.now * rate := this
    have : (s.fired : Int) ≤ s.now * rate / Second :=
      Int.le_ediv_of_mul_le (by decide) h9
    omega

/-- C7 amended, on `New(10, 1)` (10 divides `10^9`): three admissions within 250 ms. -/
theorem admissions_tick_bound_witness :
    (New 10 1).result = .bucket ⟨10, 1, 1, ⟨100000000, false⟩, false⟩ ∧
    (Sys.init ⟨10, 1, 1, ⟨100000000, false⟩, false⟩).run
        [.allow, .advance 100000000, .tickerFire, .refillRecv, .refillTick none, .allow,
          .advance 150000000, .tickerFire, .refillRecv, .refillTick none, .allow]
      = some
        { tb := ⟨10, 1, 0, ⟨100000000, false⟩, false⟩,
          waiters := [], refill := .idle, tickPending := false,
          now := 250000000, nextTick := 300000000, panicked := false, admitted := 3,
          fired := 2, ticks := 2, added := 2 } ∧
    ((3 : Nat) : Int) ≤ specBound 10 1 250000000 :=
  ⟨by decide, by decide,
    (admissions_tick_bound 10 1 ⟨10, 1, 1, ⟨100000000, false⟩, false⟩
      [.allow, .advance 100000000, .tickerFire, .refillRecv, .refillTick none, .allow,
        .advance 150000000, .tickerFire, .refillRecv, .refillTick none, .allow]
      { tb := ⟨10, 1, 0, ⟨100000000, false⟩, false⟩,
        waiters := [], refill := .idle, tickPending := false,
        now := 250000000, nextTick := 300000000, panicked := false, admitted := 3,
        fired := 2, ticks := 2, added := 2 }
      (by decide) (by decide)).2.2 (by decide)⟩

/-- C10 (failure atomicity of `Wait`): in every state reached from any bucket, a call of `Wait` that has
returned a non-nil error returned exactly its context's error (`context.Canceled` or
`context.DeadlineExceeded`, the only values of the error type) and its steps have not
changed the token count; a call that has returned `nil` has lowered the token count by
exactly one. -/
theorem wait_failure_atomicity (tb : TokenBucket) (evs : List Event)
    (s : Sys) (w : Waiter)
    (hrun : (Sys.init tb).run evs = some s) (hw : w ∈ s.waiters) :
    (∀ e : CtxErr, w.pc = .done (some e) → w.ctx.err = some e ∧ w.taken = 0) ∧
    (w.pc = .done none → w.taken = 1) := by
  have hok : w.Ok := sys_run_waiters evs (Sys.init tb) s (by simp [Sys.init]) hrun w hw
  unfold Waiter.Ok at hok
  constructor
  · intro e he
    rw [he] at hok
    exact hok
  · intro he
    rw [he] at hok
    exact hok

/-- C10, on `New(10, 1)`: a first `Wait` takes the only token and returns `nil`; a second
one suspends and returns `context.DeadlineExceeded` when its context expires. -/
theorem wait_failure_atomicity_witness :
    (New 10 1).result = .bucket ⟨10, 1, 1, ⟨100000000, false⟩, false⟩ ∧
    (Sys.init ⟨10, 1, 1, ⟨100000000, false⟩, false⟩).run
        [.waitCall ⟨none⟩, .waitStep 0, .waitStep 0, .waitCall ⟨none⟩, .waitStep 1,
          .waitStep 1, .waitStep 1, .ctxDone 1 .DeadlineExceeded, .waitStep 1]
      = some
        { tb := ⟨10, 1, 0, ⟨100000000, false⟩, false⟩,
          waiters := [⟨.done none, ⟨none⟩, 1⟩,
            ⟨.done (some .DeadlineExceeded), ⟨some .DeadlineExceeded⟩, 0⟩],
          refill := .idle, tickPending := false, now := 0, nextTick := 100000000,
          panicked := false, admitted := 1, fired := 0, ticks := 0, added := 0 } ∧
    ((⟨.done (some .DeadlineExceeded), ⟨some .DeadlineExceeded⟩, 0⟩ : Waiter).ctx.err
        = some .DeadlineExceeded ∧
      (⟨.done (some .DeadlineExceeded), ⟨some .DeadlineExceeded⟩, 0⟩ : Waiter).taken = 0) ∧
    (⟨.done none, ⟨none⟩, 1⟩ : Waiter).taken = 1 :=
  have h := wait_failure_atomicity ⟨10, 1, 1, ⟨100000000, false⟩, false⟩
      [.waitCall ⟨none⟩, .waitStep 0, .waitStep 0, .waitCall ⟨none⟩, .waitStep 1,
        .waitStep 1, .waitStep 1, .ctxDone 1 .DeadlineExceeded, .waitStep 1]
      { tb := ⟨10, 1, 0, ⟨100000000, false⟩, false⟩,
        waiters := [⟨.done none, ⟨none⟩, 1⟩,
          ⟨.done (some .DeadlineExceeded), ⟨some .DeadlineExceeded⟩, 0⟩],
        refill := .idle, tickPending := false, now := 0, nextTick := 100000000,
        panicked := false, admitted := 1, fired := 0, ticks := 0, added := 0 }
  ⟨by decide, by decide,
    (h ⟨.done (some .DeadlineExceeded), ⟨some .DeadlineExceeded⟩, 0⟩
      (by decide) (by decide)).1 .DeadlineExceeded rfl,
    (h ⟨.done none, ⟨none⟩, 1⟩ (by decide) (by decide)).2 rfl⟩

/-! ### The race of concurrent `Allow` calls -/

/-- Replacing the entry at position `i` moves its weight from the old to the new value. -/
theorem tally_set (f : AllowPc → Nat) (l : List AllowPc) :
    ∀ (i : Nat) (a b : AllowPc), l[i]? = some a →
      tally f (l.set i b) + f a = tally f l + f b := by
  induction l with
  | nil => intro i a b h; simp at h
  | cons x xs ih =>
    intro i a b h
    cases i with
    | zero =>
      simp only [List.getElem?_cons_zero, Option.some.injEq] at h
      subst h
      simp only [tally, List.set_cons_zero, List.map_cons, List.sum_cons]
      omega
    | succ k =>
      simp only [List.getElem?_cons_succ] at h
      have := ih k a b h
      simp only [tally, List.set_cons_succ, List.map_cons, List.sum_cons] at this ⊢
      omega

/-- The weight of one entry is at most the total weight. -/
theorem le_tally (f : AllowPc → Nat) (l : List AllowPc) :
    ∀ (i : Nat) (a : AllowPc), l[i]? = some a → f a ≤ tally f l := by
  induction l with
  | nil => intro i a h; simp at h
  | cons x xs ih =>
    intro i a h
    cases i with
    | zero =>
      simp only [List.getElem?_cons_zero, Option.some.injEq] at h
      subst h
      simp only [tally, List.map_cons, List.sum_cons]
      omega
    | succ k =>
      simp only [List.getElem?_cons_succ] at h
      have := ih k a h
      simp only [tally, List.map_cons, List.sum_cons] at this ⊢
      omega

/-- A positive total weight comes from some entry. -/
theorem tally_pos_exists (f : AllowPc → Nat) (l : List AllowPc) (h : 0 < tally f l) :
    ∃ (i : Nat) (a : AllowPc), l[i]? = some a ∧ 0 < f a := by
  induction l with
  | nil => simp [tally] at h
  | cons x xs ih =>
    by_cases hx : 0 < f x
    · exact ⟨0, x, by simp, hx⟩
    · have hxs : 0 < tally f xs := by
        simp only [tally, List.map_cons, List.sum_cons] at h ⊢
        omega
      obtain ⟨i, a, hi, ha⟩ := ih hxs
      exact ⟨i + 1, a, by simpa using hi, ha⟩

/-- A pointwise smaller weight has a smaller total. -/
theorem tally_mono (f g : AllowPc → Nat) (hfg : ∀ a, f a ≤ g a) (l : List AllowPc) :
    tally f l ≤ tally g l := by
  induction l with
  | nil => simp [tally]
  | cons x xs ih =>
    have := hfg x
    simp only [tally, List.map_cons, List.sum_cons] at ih ⊢
    omega

/-- The total weight of `n` calls that have not started. -/
theorem tally_replicate (f : AllowPc → Nat) (n : Nat) :
    tally f (List.replicate n .start) = n * f .start := by
  induction n with
  | zero => simp [tally]
  | succ k ih =>
    simp only [tally, List.replicate_succ, List.map_cons, List.sum_cons] at ih ⊢
    rw [ih]
    ring

/-- If some call has not returned, there is a position holding such a call. -/
theorem exists_not_done (l : List AllowPc) (h : l.all AllowPc.isDone = false) :
    ∃ (i : Nat) (a : AllowPc), l[i]? = some a ∧ a.isDone = false := by
  induction l with
  | nil => simp at h
  | cons x xs ih =>
    by_cases hx : x.isDone = false
    · exact ⟨0, x, by simp, hx⟩
    · have hxs : xs.all AllowPc.isDone = false := by
        simp only [List.all_cons, Bool.and_eq_false_iff] at h
        rcases h with h | h
        · exact absurd h hx
        · exact h
      obtain ⟨i, a, hi, ha⟩ := ih hxs
      exact ⟨i + 1, a, by simpa using hi, ha⟩

/-- Once every call has returned, the weights `won` and `lost` count the results. -/
theorem tally_finished (l : List AllowPc) (h : l.all AllowPc.isDone = true) :
    tally AllowPc.won l = l.count (.done true) ∧
    tally AllowPc.lost l = l.count (.done false) ∧
    l.count (.done true) + l.count (.done false) = l.length := by
  induction l with
  | nil => simp [tally]
  | cons x xs ih =>
    simp only [List.all_cons, Bool.and_eq_true] at h
    obtain ⟨h1, h2, h3⟩ := ih h.2
    have hx := h.1
    cases x with
    | done r =>
      cases r <;>
        simp only [tally, List.map_cons, List.sum_cons, List.count_cons, List.length_cons,
          AllowPc.won, AllowPc.lost] at h1 h2 ⊢ <;>
        simp <;> omega
    | start => simp [AllowPc.isDone] at hx
    | locked => simp [AllowPc.isDone] at hx
    | dec => simp [AllowPc.isDone] at hx
    | ret r => simp [AllowPc.isDone] at hx

/-- Every statement a caller runs keeps the invariant of the race, keeps the number of
callers, and brings the race one statement closer to its end. -/
theorem race_step_inv {c : Int} {s s1 : Race} {i : Nat} (hi : s.Inv c)
    (hs : s.step i = some s1) :
    s1.Inv c ∧ s1.callers.length = s.callers.length ∧
      tally AllowPc.togo s1.callers + 1 ≤ tally AllowPc.togo s.callers := by
  obtain ⟨h1, h2, h3, h4, h5⟩ := hi
  have hdc : tally AllowPc.atDec s.callers ≤ tally AllowPc.inCS s.callers :=
    tally_mono _ _ (fun a => by cases a <;> simp [AllowPc.atDec, AllowPc.inCS]) _
  have hmu : (if s.mu = true then 1 else 0) ≤ 1 := by split <;> omega
  unfold Race.step at hs
  split at hs
  · cases hs
  · rename_i hj
    split at hs
    · cases hs
    · rename_i hfree
      cases hs
      unfold Race.Inv
      dsimp only
      have e1 := tally_set AllowPc.inCS s.callers i _ .locked hj
      have e2 := tally_set AllowPc.atDec s.callers i _ .locked hj
      have e3 := tally_set AllowPc.won s.callers i _ .locked hj
      have e4 := tally_set AllowPc.lost s.callers i _ .locked hj
      have e5 := tally_set AllowPc.togo s.callers i _ .locked hj
      simp only [AllowPc.inCS, AllowPc.atDec, AllowPc.won, AllowPc.lost, AllowPc.togo] at *
      simp only [hfree] at h1
      refine ⟨⟨?_, ?_, ?_, h4, ?_⟩, by simp, by omega⟩
      · simp at h1 ⊢; omega
      · intro h; apply h2; omega
      · have : tally AllowPc.won (s.callers.set i .locked) = tally AllowPc.won s.callers := by
          omega
        rw [this]; exact h3
      · intro h; apply h5; omega
  · rename_i hj
    cases hs
    unfold Race.Inv
    dsimp only
    by_cases hpos : s.tb.tokens > 0
    · have e1 := tally_set AllowPc.inCS s.callers i _ .dec hj
      have e2 := tally_set AllowPc.atDec s.callers i _ .dec hj
      have e3 := tally_set AllowPc.won s.callers i _ .dec hj
      have e4 := tally_set AllowPc.lost s.callers i _ .dec hj
      have e5 := tally_set AllowPc.togo s.callers i _ .dec hj
      simp only [AllowPc.inCS, AllowPc.atDec, AllowPc.won, AllowPc.lost, AllowPc.togo] at *
      simp only [if_pos hpos] at *
      refine ⟨⟨by omega, fun _ => hpos, ?_, h4, ?_⟩, by simp, by omega⟩
      · have : tally AllowPc.won (s.callers.set i .dec) = tally AllowPc.won s.callers := by
          omega
        rw [this]; exact h3
      · intro h; apply h5; omega
    · have e1 := tally_set AllowPc.inCS s.callers i _ (.ret false) hj
      have e2 := tally_set AllowPc.atDec s.callers i _ (.ret false) hj
      have e3 := tally_set AllowPc.won s.callers i _ (.ret false) hj
      have e4 := tally_set AllowPc.lost s.callers i _ (.ret false) hj
      have e5 := tally_set AllowPc.togo s.callers i _ (.ret false) hj
      simp only [AllowPc.inCS, AllowPc.atDec, AllowPc.won, AllowPc.lost, AllowPc.togo] at *
      simp only [if_neg hpos] at *
      refine ⟨⟨by omega, ?_, ?_, h4, fun _ => by omega⟩, by simp, by omega⟩
      · intro h; apply h2; omega
      · have : tally AllowPc.won (s.callers.set i (.ret false))
            = tally AllowPc.won s.callers := by omega
        rw [this]; exact h3
  · rename_i hj
    cases hs
    unfold Race.Inv
    dsimp only
    have e1 := tally_set AllowPc.inCS s.callers i _ (.ret true) hj
    have e2 := tally_set AllowPc.atDec s.callers i _ (.ret true) hj
    have e3 := tally_set AllowPc.won s.callers i _ (.ret true) hj
    have e4 := tally_set AllowPc.lost s.callers i _ (.ret true) hj
    have e5 := tally_set AllowPc.togo s.callers i _ (.ret true) hj
    have hge := le_tally AllowPc.atDec s.callers i _ hj
    simp only [AllowPc.inCS, AllowPc.atDec, AllowPc.won, AllowPc.lost, AllowPc.togo] at *
    have hpos : 0 < s.tb.tokens := h2 (by omega)
    refine ⟨⟨by omega, ?_, ?_, ?_, ?_⟩, by simp, by omega⟩
    · intro h; exfalso; omega
    · have : (tally AllowPc.won (s.callers.set i (.ret true)) : Int)
          = (tally AllowPc.won s.callers : Int) + 1 := by omega
      rw [this]; omega
    · omega
    · intro h
      have : 0 < tally AllowPc.lost s.callers := by omega
      have := h5 this
      omega
  · rename_i r hj
    cases hs
    unfold Race.Inv
    dsimp only
    have e1 := tally_set AllowPc.inCS s.callers i _ (.done r) hj
    have e2 := tally_set AllowPc.atDec s.callers i _ (.done r) hj
    have e3 := tally_set AllowPc.won s.callers i _ (.done r) hj
    have e4 := tally_set AllowPc.lost s.callers i _ (.done r) hj
    have e5 := tally_set AllowPc.togo s.callers i _ (.done r) hj
    have hge := le_tally AllowPc.inCS s.callers i _ hj
    simp only [AllowPc.inCS, AllowPc.atDec, AllowPc.togo] at *
    have hw : AllowPc.won (.done r) = AllowPc.won (.ret r) := by cases r <;> rfl
    have hl : AllowPc.lost (.done r) = AllowPc.lost (.ret r) := by cases r <;> rfl
    refine ⟨⟨?_, ?_, ?_, h4, ?_⟩, by simp, by omega⟩
    · simp; omega
    · intro h; apply h2; omega
    · have : tally AllowPc.won (s.callers.set i (.done r)) = tally AllowPc.won s.callers := by
        omega
      rw [this]; exact h3
    · intro h; apply h5; omega
  · cases hs

/-- Along an interleaving the invariant is kept, no caller appears or disappears, and the
statements run so far plus those still to run never exceed those to run at the start. -/
theorem race_run_inv {c : Int} (sched : List Nat) :
    ∀ s s1 : Race, s.Inv c → s.run sched = some s1 →
      s1.Inv c ∧ s1.callers.length = s.callers.length ∧
        tally AllowPc.togo s1.callers + sched.length ≤ tally AllowPc.togo s.callers := by
  induction sched with
  | nil =>
    intro s s1 hi hr
    simp only [Race.run, Option.some.injEq] at hr
    subst hr
    exact ⟨hi, rfl, by simp⟩
  | cons i sched ih =>
    intro s s1 hi hr
    simp only [Race.run] at hr
    split at hr
    · cases hr
    · rename_i s2 hstep
      obtain ⟨a, b, c1⟩ := race_step_inv hi hstep
      obtain ⟨a2, b2, c2⟩ := ih s2 s1 a hr
      refine ⟨a2, by rw [b2, b], ?_⟩
      simp only [List.length_cons]
      omega

/-- The invariant holds when the race begins on a bucket with a non-negative count. -/
theorem race_init_inv (tb : TokenBucket) (n : Nat) (h : 0 ≤ tb.tokens) :
    (Race.init tb n).Inv tb.tokens := by
  unfold Race.Inv Race.init
  simp only [tally_replicate, AllowPc.inCS, AllowPc.atDec, AllowPc.won, AllowPc.lost]
  simp
  exact h

/-- While some call has not returned, some caller can run its next statement. -/
theorem race_progress {c : Int} (s : Race) (hi : s.Inv c) (hf : s.finished = false) :
    ∃ i, (s.step i).isSome = true := by
  obtain ⟨h1, _, _, _, _⟩ := hi
  by_cases hmu : s.mu = true
  · rw [if_pos hmu] at h1
    obtain ⟨i, a, hj, ha⟩ := tally_pos_exists AllowPc.inCS s.callers (by omega)
    refine ⟨i, ?_⟩
    unfold Race.step
    rw [hj]
    cases a <;> simp [AllowPc.inCS] at ha ⊢
  · rw [if_neg hmu] at h1
    obtain ⟨i, a, hj, ha⟩ := exists_not_done s.callers hf
    have hle := le_tally AllowPc.inCS s.callers i a hj
    refine ⟨i, ?_⟩
    unfold Race.step
    rw [hj]
    cases a <;> simp [AllowPc.inCS, AllowPc.isDone] at ha hle ⊢
    all_goals simpa using hmu

/-- C9 (concurrent exactness): `N > capacity` callers run `Allow` concurrently on a bucket
returned by `New rate capacity`, statement by statement, with no refill tick during the
race.  Under every interleaving `sched`: at most one caller is between `Lock` and
`Unlock`; as long as some call has not returned some caller can move, and no interleaving
has more than `4 * N` steps, so every interleaving runs to the end; and once all calls
have returned, exactly `capacity` of them have returned `true` and `N - capacity` have
returned `false`, and the bucket is empty (each token was taken by exactly one caller). -/
theorem concurrent_exactness (rate capacity : Int) (tb : TokenBucket) (N : Nat)
    (sched : List Nat) (s : Race)
    (hnew : (New rate capacity).result = .bucket tb) (hN : capacity < (N : Int))
    (hrun : (Race.init tb N).run sched = some s) :
    tally AllowPc.inCS s.callers ≤ 1 ∧
    (s.finished = false → ∃ i, (s.step i).isSome = true) ∧
    sched.length ≤ 4 * N ∧
    (s.finished = true →
      s.returned true = capacity.toNat ∧ s.returned false = N - capacity.toNat ∧
        s.tb.tokens = 0) := by
  obtain ⟨_, hc, _, htb⟩ := New_bucket_inv rate capacity tb hnew
  have htok : tb.tokens = capacity := by rw [htb]
  have h0 : (Race.init tb N).Inv tb.tokens := race_init_inv tb N (by rw [htok]; omega)
  obtain ⟨hi, hlen, hgo⟩ := race_run_inv sched _ s h0 hrun
  have hlen2 : s.callers.length = N := by rw [hlen]; simp [Race.init]
  have hgo2 : sched.length ≤ 4 * N := by
    have : tally AllowPc.togo (Race.init tb N).callers = N * 4 := by
      simp [Race.init, tally_replicate, AllowPc.togo]
    omega
  refine ⟨?_, fun hf => race_progress s hi hf, hgo2, ?_⟩
  · rw [hi.1]
    split <;> omega
  · intro hf
    obtain ⟨hw, hl, hsum⟩ := tally_finished s.callers hf
    obtain ⟨_, _, h3, h4, h5⟩ := hi
    unfold Race.returned
    rw [← hw, ← hl]
    rw [hw, hl] at *
    rw [htok] at h3
    have hlost : 0 < List.count (AllowPc.done false) s.callers := by omega
    have hz := h5 hlost
    refine ⟨by omega, by omega, hz⟩

/-- C9, on `New(100, 2)` with three callers: the first and the third take the two tokens,
the second finds the bucket empty. -/
theorem concurrent_exactness_witness :
    (New 100 2).result = .bucket ⟨100, 2, 2, ⟨10000000, false⟩, false⟩ ∧
    (Race.init ⟨100, 2, 2, ⟨10000000, false⟩, false⟩ 3).run [0, 0, 0, 0, 2, 2, 2, 2, 1, 1, 1]
      = some { tb := ⟨100, 2, 0, ⟨10000000, false⟩, false⟩, mu := false,
               callers := [.done true, .done false, .done true] } ∧
    ((Race.mk ⟨100, 2, 0, ⟨10000000, false⟩, false⟩ false
        [.done true, .done false, .done true]).returned true = (2 : Int).toNat ∧
      (Race.mk ⟨100, 2, 0, ⟨10000000, false⟩, false⟩ false
        [.done true, .done false, .done true]).returned false = 3 - (2 : Int).toNat ∧
      (Race.mk ⟨100, 2, 0, ⟨10000000, false⟩, false⟩ false
        [.done true, .done false, .done true]).tb.tokens = 0) :=
  ⟨by decide, by decide,
    (concurrent_exactness 100 2 ⟨100, 2, 2, ⟨10000000, false⟩, false⟩ 3
      [0, 0, 0, 0, 2, 2, 2, 2, 1, 1, 1]
      { tb := ⟨100, 2, 0, ⟨10000000, false⟩, false⟩, mu := false,
        callers := [.done true, .done false, .done true] }
      (by decide) (by decide) (by decide)).2.2.2 (by decide)⟩

/-! ### Further claims about the sequential code -/

/-- C20 (tick-period positivity): the period `New` computes, `time.Second / rate`, is at
least 1 ns exactly when `1 <= rate <= 10^9`; for every rate above `10^9` it is 0, on which
`time.NewTicker` panics, so that `New` panics for such a rate with a positive capacity; and
`New` returns a bucket exactly for the rates in `1..10^9` with `capacity > 0`. -/
theorem period_positivity (rate capacity : Int) :
    (1 ≤ Int.tdiv Second rate ↔ (1 ≤ rate ∧ rate ≤ 1000000000)) ∧
    (1000000000 < rate →
      Int.tdiv Second rate = 0 ∧ NewTicker (Int.tdiv Second rate) = none ∧
        (0 < capacity → New rate capacity = { result := .panic, effects := [] })) ∧
    ((∃ tb, (New rate capacity).result = .bucket tb) ↔
      (1 ≤ rate ∧ rate ≤ 1000000000 ∧ 0 < capacity)) := by
  have hS : Second = 1000000000 := rfl
  refine ⟨?_, ?_, ?_⟩
  · constructor
    · intro h
      have hr : 0 < rate := by
        by_contra hc
        have := Int.tdiv_nonpos (a := Second) (by decide) (not_lt.mp hc)
        omega
      have := (interval_pos_iff rate hr).mp (by omega)
      omega
    · intro h
      have := (interval_pos_iff rate (by omega)).mpr (by omega)
      omega
  · intro h
    have hr : 0 < rate := by omega
    have h0 : Int.tdiv Second rate = 0 := by
      rw [interval_eq_ediv rate hr]
      exact Int.ediv_eq_zero_of_lt (by decide) (by omega)
    refine ⟨h0, by simp [NewTicker, h0], ?_⟩
    intro hc
    have hg : ¬ (rate ≤ 0 ∨ capacity ≤ 0) := by omega
    simp [New, hg, NewTicker, h0]
  · constructor
    · rintro ⟨tb, h⟩
      obtain ⟨hr, hc, hd, _⟩ := New_bucket_inv rate capacity tb h
      have := (interval_pos_iff rate hr).mp hd
      omega
    · rintro ⟨h1, h2, h3⟩
      have hg : ¬ (rate ≤ 0 ∨ capacity ≤ 0) := by omega
      have hd : ¬ Int.tdiv Second rate ≤ 0 := by
        have := (interval_pos_iff rate (by omega)).mpr (by omega)
        omega
      simp [New, hg, NewTicker, hd]

/-- C20, at the two ends of the range and just past it: `New(1000000000, 1)` has a period
of 1 ns, `New(1000000001, 1)` panics. -/
theorem period_positivity_witness :
    Int.tdiv Second 1000000000 = 1 ∧
    (Int.tdiv Second 1000000001 = 0 ∧ NewTicker (Int.tdiv Second 1000000001) = none ∧
      ((0 : Int) < 1 → New 1000000001 1 = { result := .panic, effects := [] })) ∧
    (∃ tb, (New 1 1).result = .bucket tb) :=
  ⟨by decide, (period_positivity 1000000001 1).2.1 (by decide),
    (period_positivity 1 1).2.2.mpr ⟨by decide, by decide, by decide⟩⟩

/-- C15 (refill tick step): one tick handled by `refill` adds exactly one token when
`tokens < capacity` and leaves the count as it is when `tokens = capacity`; on every bucket
with `tokens <= capacity` the new count is `min (tokens + 1) capacity`.  Whatever the
bucket, nothing but the count changes: rate and capacity (and ticker and stop channel) are
as before. -/
theorem refill_tick_step (tb : TokenBucket) (b : Bool) :
    (tb.tokens < tb.capacity → (tb.refillTick b).1.tokens = tb.tokens + 1) ∧
    (tb.tokens = tb.capacity → (tb.refillTick b).1.tokens = tb.tokens) ∧
    (tb.tokens ≤ tb.capacity → (tb.refillTick b).1.tokens = min (tb.tokens + 1) tb.capacity) ∧
    (tb.refillTick b).1 = { tb with tokens := (tb.refillTick b).1.tokens } ∧
    (tb.refillTick b).1.rate = tb.rate ∧ (tb.refillTick b).1.capacity = tb.capacity := by
  refine ⟨?_, ?_, ?_, ?_, (refillTick_fixed tb b).1, (refillTick_fixed tb b).2.1⟩
  · intro h
    rw [refillTick_lt tb b h]
  · intro h
    rw [refillTick_full tb b (by omega)]
  · intro h
    by_cases hlt : tb.tokens < tb.capacity
    · rw [refillTick_lt tb b hlt]
      simp only
      omega
    · rw [refillTick_full tb b hlt]
      simp only
      omega
  · by_cases hlt : tb.tokens < tb.capacity
    · rw [refillTick_lt tb b hlt]
    · rw [refillTick_full tb b hlt]

/-- C15, on a bucket of capacity 5 holding 2 tokens and on a full one. -/
theorem refill_tick_step_witness :
    (⟨10, 5, 2, ⟨100000000, false⟩, false⟩ : TokenBucket).tokens
        < (⟨10, 5, 2, ⟨100000000, false⟩, false⟩ : TokenBucket).capacity ∧
    ((⟨10, 5, 2, ⟨100000000, false⟩, false⟩ : TokenBucket).refillTick false).1.tokens = 2 + 1 ∧
    ((⟨10, 5, 5, ⟨100000000, false⟩, false⟩ : TokenBucket).refillTick false).1.tokens = 5 :=
  ⟨by decide, (refill_tick_step ⟨10, 5, 2, ⟨100000000, false⟩, false⟩ false).1 (by decide),
    (refill_tick_step ⟨10, 5, 5, ⟨100000000, false⟩, false⟩ false).2.1 rfl⟩

/-- C18 (`Stop` is safe exactly once): in a state whose stop channel is still open, a call
of `Stop` completes without panic, stops the ticker, closes the stop channel and leaves
tokens, rate and capacity unchanged; a second `Stop` on the same bucket panics (close of
a closed channel). -/
theorem stop_once (s : Sys) (hp : s.panicked = false) (hc : s.tb.stopClosed = false) :
    ∃ tb1, s.tb.Stop = some tb1 ∧
      tb1.tokens = s.tb.tokens ∧ tb1.rate = s.tb.rate ∧ tb1.capacity = s.tb.capacity ∧
      tb1.ticker.stopped = true ∧ tb1.stopClosed = true ∧
      tb1.Stop = none ∧
      s.run [.stop] = some { s with tb := tb1 } ∧
      s.run [.stop, .stop] = some { s with tb := tb1, panicked := true } := by
  refine ⟨{ s.tb with ticker := { s.tb.ticker with stopped := true }, stopClosed := true },
    ?_, rfl, rfl, rfl, rfl, rfl, ?_, ?_, ?_⟩
  · simp [TokenBucket.Stop, hc]
  · simp [TokenBucket.Stop]
  · simp [Sys.run, Sys.step, hp, TokenBucket.Stop, hc]
  · simp [Sys.run, Sys.step, hp, TokenBucket.Stop, hc]

/-- C18, on the bucket `New(10, 5)` returns: the first `Stop` succeeds, the second
panics. -/
theorem stop_once_witness :
    (New 10 5).result = .bucket ⟨10, 5, 5, ⟨100000000, false⟩, false⟩ ∧
    (∃ tb1, (Sys.init ⟨10, 5, 5, ⟨100000000, false⟩, false⟩).tb.Stop = some tb1 ∧
      tb1.tokens = (Sys.init ⟨10, 5, 5, ⟨100000000, false⟩, false⟩).tb.tokens ∧
      tb1.rate = (Sys.init ⟨10, 5, 5, ⟨100000000, false⟩, false⟩).tb.rate ∧
      tb1.capacity = (Sys.init ⟨10, 5, 5, ⟨100000000, false⟩, false⟩).tb.capacity ∧
      tb1.ticker.stopped = true ∧ tb1.stopClosed = true ∧
      tb1.Stop = none ∧
      (Sys.init ⟨10, 5, 5, ⟨100000000, false⟩, false⟩).run [.stop]
        = some { Sys.init ⟨10, 5, 5, ⟨100000000, false⟩, false⟩ with tb := tb1 } ∧
      (Sys.init ⟨10, 5, 5, ⟨100000000, false⟩, false⟩).run [.stop, .stop]
        = some { Sys.init ⟨10, 5, 5, ⟨100000000, false⟩, false⟩ with
                  tb := tb1, panicked := true }) :=
  ⟨by decide, stop_once (Sys.init ⟨10, 5, 5, ⟨100000000, false⟩, false⟩) rfl rfl⟩

/-- The count after `k` ticks handled in a row, on a bucket within its bounds. -/
theorem tickRun_tokens (k : Nat) :
    ∀ tb : TokenBucket, tb.tokens ≤ tb.capacity →
      (tickRun k tb).tokens = min (tb.tokens + k) tb.capacity ∧
      (tickRun k tb).capacity = tb.capacity := by
  induction k with
  | zero =>
    intro tb h
    refine ⟨?_, rfl⟩
    simp only [tickRun, Nat.cast_zero, add_zero]
    omega
  | succ n ih =>
    intro tb h
    rw [tickRun]
    by_cases hlt : tb.tokens < tb.capacity
    · rw [refillTick_lt tb false hlt]
      obtain ⟨h1, h2⟩ := ih { tb with tokens := tb.tokens + 1 } (by simp only; omega)
      simp only at h1 h2
      rw [h1, h2]
      push_cast
      exact ⟨by omega, rfl⟩
    · rw [refillTick_full tb false hlt]
      obtain ⟨h1, h2⟩ := ih tb h
      rw [h1, h2]
      push_cast
      exact ⟨by omega, rfl⟩

/-- C16 (fast path of `Wait`): on a bucket with `tokens > 0` and with a live context, a call
of `Wait` passes its first `select`, takes the lock and returns `nil` there, without ever
being suspended; the bucket it leaves is exactly the one a successful `Allow` leaves
(`tokens - 1`, nothing else changed), and the whole system ends as after that `Allow` except
for the record of the finished call. -/
theorem wait_fast_path (s : Sys) (ctx : Context) (hp : s.panicked = false)
    (ht : 0 < s.tb.tokens) (hl : ctx.err = none) :
    s.tb.Allow.1 = true ∧ s.tb.Allow.2.tokens = s.tb.tokens - 1 ∧
    s.tb.WaitStep ctx .entry = some (.lock, s.tb) ∧
    s.tb.WaitStep ctx .lock = some (.done none, s.tb.Allow.2) ∧
    s.run [.allow] = some { s with tb := s.tb.Allow.2, admitted := s.admitted + 1 } ∧
    s.run [.waitCall ctx, .waitStep s.waiters.length, .waitStep s.waiters.length]
      = some { s with
          tb := s.tb.Allow.2
          waiters := s.waiters ++ [{ pc := .done none, ctx := ctx, taken := 1 }]
          admitted := s.admitted + 1 } := by
  have ha : s.tb.Allow = (true, { s.tb with tokens := s.tb.tokens - 1 }) := Allow_pos s.tb ht
  have h1 : s.tb.WaitStep ctx .entry = some (.lock, s.tb) := by
    simp [TokenBucket.WaitStep, hl]
  have h2 : s.tb.WaitStep ctx .lock = some (.done none, { s.tb with tokens := s.tb.tokens - 1 }) := by
    simp [TokenBucket.WaitStep, ht]
  rw [ha]
  refine ⟨rfl, rfl, h1, h2, ?_, ?_⟩
  · simp [Sys.run, Sys.step, hp, ha]
  · simp [Sys.run, Sys.step, hp, h1, h2, set_append_length]

/-- C16, on the bucket `New(10, 5)` returns. -/
theorem wait_fast_path_witness :
    (New 10 5).result = .bucket ⟨10, 5, 5, ⟨100000000, false⟩, false⟩ ∧
    (Sys.init ⟨10, 5, 5, ⟨100000000, false⟩, false⟩).tb.WaitStep ⟨none⟩ .lock
      = some (.done none, (Sys.init ⟨10, 5, 5, ⟨100000000, false⟩, false⟩).tb.Allow.2) ∧
    (Sys.init ⟨10, 5, 5, ⟨100000000, false⟩, false⟩).run [.waitCall ⟨none⟩, .waitStep 0, .waitStep 0]
      = some { Sys.init ⟨10, 5, 4, ⟨100000000, false⟩, false⟩ with
          waiters := [⟨.done none, ⟨none⟩, 1⟩], admitted := 1 } :=
  ⟨by decide,
    (wait_fast_path (Sys.init ⟨10, 5, 5, ⟨100000000, false⟩, false⟩) ⟨none⟩ rfl (by decide)
      rfl).2.2.2.1,
    by decide⟩

/-- C19 (accounting identity): along every run from a bucket returned by
`New rate capacity`, `tokens = capacity + added - admitted`, where `added` counts the ticks
that found `tokens < capacity` and `admitted` the successful admissions; every such tick
is a tick `refill` handled and every handled tick was fired by the ticker, hence the
admissions never exceed `capacity` plus the number of ticks handled, nor `capacity` plus
the number of ticks fired. -/
theorem accounting_identity (rate capacity : Int) (tb : TokenBucket) (evs : List Event)
    (s : Sys) (hnew : (New rate capacity).result = .bucket tb)
    (hrun : (Sys.init tb).run evs = some s) :
    s.tb.tokens = capacity + (s.added : Int) - (s.admitted : Int) ∧
    s.added ≤ s.ticks ∧ s.ticks ≤ s.fired ∧
    (s.admitted : Int) ≤ capacity + (s.ticks : Int) ∧
    (s.admitted : Int) ≤ capacity + (s.fired : Int) := by
  obtain ⟨hi, _, hc, _⟩ := sys_run_inv evs _ s (sys_init_inv rate capacity tb hnew) hrun
  obtain ⟨_, _, _, htb⟩ := New_bucket_inv rate capacity tb hnew
  have hcap : s.tb.capacity = capacity := by rw [hc, htb]; rfl
  obtain ⟨h1, _, _, h4, h5, h6, _, _⟩ := hi
  rw [hcap] at h4
  have h7 : s.ticks ≤ s.fired := by omega
  refine ⟨by omega, h5, h7, by omega, by omega⟩

/-- C19, on `New(10, 2)`: two admissions, one tick that added a token, one token left. -/
theorem accounting_identity_witness :
    (New 10 2).result = .bucket ⟨10, 2, 2, ⟨100000000, false⟩, false⟩ ∧
    (Sys.init ⟨10, 2, 2, ⟨100000000, false⟩, false⟩).run
        [.allow, .waitCall ⟨none⟩, .waitStep 0, .waitStep 0, .advance 100000000,
          .tickerFire, .refillRecv, .refillTick none]
      = some
        { tb := ⟨10, 2, 1, ⟨100000000, false⟩, false⟩,
          waiters := [⟨.done none, ⟨none⟩, 1⟩], refill := .idle, tickPending := false,
          now := 100000000, nextTick := 200000000, panicked := false, admitted := 2,
          fired := 1, ticks := 1, added := 1 } ∧
    (1 : Int) = 2 + ((1 : Nat) : Int) - ((2 : Nat) : Int) :=
  ⟨by decide, by decide,
    (accounting_identity 10 2 ⟨10, 2, 2, ⟨100000000, false⟩, false⟩
      [.allow, .waitCall ⟨none⟩, .waitStep 0, .waitStep 0, .advance 100000000,
        .tickerFire, .refillRecv, .refillTick none]
      { tb := ⟨10, 2, 1, ⟨100000000, false⟩, false⟩,
        waiters := [⟨.done none, ⟨none⟩, 1⟩], refill := .idle, tickPending := false,
        now := 100000000, nextTick := 200000000, panicked := false, admitted := 2,
        fired := 1, ticks := 1, added := 1 }
      (by decide) (by decide)).1⟩

/-- C12 (burst ceiling): in every state reached from a bucket returned by
`New rate capacity`, the number of consecutive `Allow` calls that return `true` with no
tick in between is the current token count (that many succeed, the next one is refused),
and it is at most `capacity`; after `k >= capacity` ticks handled with no admission in
between it is exactly `capacity`. -/
theorem burst_ceiling (rate capacity : Int) (tb : TokenBucket) (evs : List Event) (s : Sys)
    (hnew : (New rate capacity).result = .bucket tb)
    (hrun : (Sys.init tb).run evs = some s) :
    (allowRun (s.tb.tokens.toNat + 1) s.tb).1
        = List.replicate s.tb.tokens.toNat true ++ [false] ∧
    (s.tb.tokens.toNat : Int) = s.tb.tokens ∧ s.tb.tokens ≤ capacity ∧
    (∀ k : Nat, capacity ≤ (k : Int) →
      (tickRun k s.tb).tokens = capacity ∧
      (allowRun (capacity.toNat + 1) (tickRun k s.tb)).1
        = List.replicate capacity.toNat true ++ [false]) := by
  obtain ⟨hi, _, hc, _⟩ := sys_run_inv evs _ s (sys_init_inv rate capacity tb hnew) hrun
  obtain ⟨_, hcpos, _, htb⟩ := New_bucket_inv rate capacity tb hnew
  have hcap : s.tb.capacity = capacity := by rw [hc, htb]; rfl
  obtain ⟨h1, h2, _⟩ := hi
  have hnat : (s.tb.tokens.toNat : Int) = s.tb.tokens := Int.toNat_of_nonneg h1
  refine ⟨allowRun_exhaust _ s.tb hnat.symm, hnat, by omega, ?_⟩
  intro k hk
  obtain ⟨t1, _⟩ := tickRun_tokens k s.tb h2
  have ht : (tickRun k s.tb).tokens = capacity := by
    rw [t1, hcap]
    omega
  refine ⟨ht, allowRun_exhaust _ _ ?_⟩
  rw [ht]
  exact (Int.toNat_of_nonneg (le_of_lt hcpos)).symm

/-- C12, on `New(10, 2)` after one `Allow`: a burst of one, and of two after two ticks. -/
theorem burst_ceiling_witness :
    (New 10 2).result = .bucket ⟨10, 2, 2, ⟨100000000, false⟩, false⟩ ∧
    (Sys.init ⟨10, 2, 2, ⟨100000000, false⟩, false⟩).run [.allow]
      = some { Sys.init ⟨10, 2, 1, ⟨100000000, false⟩, false⟩ with admitted := 1 } ∧
    (allowRun ((1 : Int).toNat + 1) ⟨10, 2, 1, ⟨100000000, false⟩, false⟩).1
      = List.replicate (1 : Int).toNat true ++ [false] ∧
    (tickRun 2 ⟨10, 2, 1, ⟨100000000, false⟩, false⟩).tokens = 2 :=
  have h := burst_ceiling 10 2 ⟨10, 2, 2, ⟨100000000, false⟩, false⟩ [.allow]
    { Sys.init ⟨10, 2, 1, ⟨100000000, false⟩, false⟩ with admitted := 1 }
    (by decide) (by decide)
  ⟨by decide, by decide, h.1, (h.2.2.2 2 (by decide)).1⟩

/-- C17 as stated fails on the code.  `New(70000, 1)` gives the ticker a period of
14285 ns; `70000` such periods leave a skew of 50000 ns, more than three periods, and
70003 ticks fit in one second, three more than the rate. -/
theorem skew_counterexample :
    (New 70000 1).result = .bucket ⟨70000, 1, 1, ⟨14285, false⟩, false⟩ ∧
    skew 70000 14285 = 50000 ∧ ¬ (skew 70000 14285 ≤ 14285) ∧
    ticksPerSecond 14285 = 70003 ∧ ¬ (ticksPerSecond 14285 - 70000 ≤ 1) := by
  decide

/-- C17, amended: for every rate accepted by `New`, the period `d = floor(10^9 / rate)` is
within one nanosecond of the exact `1s / rate` (`d * rate <= 10^9 < (d + 1) * rate`), so the
skew accumulated over `rate` ticks, `10^9 - rate * d`, is non-negative and less than `rate`
nanoseconds, and the ticker never ticks fewer than `rate` times per second.  Whenever that
skew is at most one period the ticks per second exceed `rate` by at most one, and this is so
for every rate with `rate * rate <= 10^9` (rates up to 31622). -/
theorem skew_bound (rate capacity : Int) (tb : TokenBucket)
    (hnew : (New rate capacity).result = .bucket tb) :
    tb.ticker.d = Second / rate ∧
    tb.ticker.d * rate ≤ Second ∧ Second < (tb.ticker.d + 1) * rate ∧
    0 ≤ skew rate tb.ticker.d ∧ skew rate tb.ticker.d < rate ∧
    rate ≤ ticksPerSecond tb.ticker.d ∧
    (skew rate tb.ticker.d ≤ tb.ticker.d → ticksPerSecond tb.ticker.d ≤ rate + 1) ∧
    (rate * rate ≤ Second → skew rate tb.ticker.d ≤ tb.ticker.d) := by
  obtain ⟨hr, _, hd, htb⟩ := New_bucket_inv rate capacity tb hnew
  have hper : tb.ticker.d = Second / rate := by
    rw [htb]
    exact interval_eq_ediv rate hr
  have hdpos : 0 < tb.ticker.d := by rw [htb]; exact hd
  have hle : tb.ticker.d * rate ≤ Second := by
    rw [hper]
    exact Int.ediv_mul_le Second (ne_of_gt hr)
  have hlt : Second < (tb.ticker.d + 1) * rate := by
    rw [hper]
    exact Int.lt_ediv_add_one_mul_self Second hr
  have hcomm : rate * tb.ticker.d = tb.ticker.d * rate := Int.mul_comm _ _
  have hexp : (tb.ticker.d + 1) * rate = tb.ticker.d * rate + rate := by ring
  have hsk : skew rate tb.ticker.d = Second - tb.ticker.d * rate := by
    unfold skew
    rw [hcomm]
  have htps : rate ≤ ticksPerSecond tb.ticker.d := by
    unfold ticksPerSecond
    exact Int.le_ediv_of_mul_le hdpos (by rw [hcomm]; exact hle)
  refine ⟨hper, hle, hlt, by omega, by omega, htps, ?_, ?_⟩
  · intro h
    unfold ticksPerSecond
    have hS : Second ≤ (rate + 1) * tb.ticker.d := by
      have : (rate + 1) * tb.ticker.d = tb.ticker.d * rate + tb.ticker.d := by ring
      omega
    exact Int.ediv_le_of_le_mul hdpos hS
  · intro h
    have : rate ≤ Second / rate := Int.le_ediv_of_mul_le hr h
    omega

/-- C17 amended, on `New(3, 1)`: a period of 333333333 ns, a skew of 1 ns over three ticks,
and three ticks per second. -/
theorem skew_bound_witness :
    (New 3 1).result = .bucket ⟨3, 1, 1, ⟨333333333, false⟩, false⟩ ∧
    skew 3 333333333 = 1 ∧
    skew 3 (⟨3, 1, 1, ⟨333333333, false⟩, false⟩ : TokenBucket).ticker.d
      ≤ (⟨3, 1, 1, ⟨333333333, false⟩, false⟩ : TokenBucket).ticker.d ∧
    ticksPerSecond (⟨3, 1, 1, ⟨333333333, false⟩, false⟩ : TokenBucket).ticker.d ≤ 3 + 1 :=
  have h := skew_bound 3 1 ⟨3, 1, 1, ⟨333333333, false⟩, false⟩ (by decide)
  ⟨by decide, by decide, h.2.2.2.2.2.2.2 (by decide),
    h.2.2.2.2.2.2.1 (h.2.2.2.2.2.2.2 (by decide))⟩

/-! ### Notification and shutdown -/

/-- A call of `Wait` that is suspended with a live context makes `anyParked` true. -/
theorem anyParked_of_parked (s : Sys) (j : Nat) (w : Waiter) (hj : s.waiters[j]? = some w)
    (hpc : w.pc = .parked) (hlive : w.ctx.err = none) : s.anyParked = true := by
  unfold Sys.anyParked
  rw [List.any_eq_true]
  exact ⟨w, List.getElem?_mem hj, by simp [hpc, hlive]⟩

/-- C14 (notification on every tick) fails on the code: the claim has `refill` attempt the
send on the wake-up signal on each tick, also on one that finds `tokens = capacity`, but in
the code the send sits inside `if tb.tokens < tb.capacity`.  After `New(10, 1)`, an `Allow`
and a `Wait` that is suspended with a live context while the bucket is full again, the next
tick finds `tokens = capacity`: no send can reach the suspended call (the step
`refillTick (some 0)` is impossible), the tick ends with the call still suspended, and the
tick branch reports no delivery even with a receiver waiting. -/
theorem notify_counterexample :
    (New 10 1).result = .bucket ⟨10, 1, 1, ⟨100000000, false⟩, false⟩ ∧
    (Sys.init ⟨10, 1, 1, ⟨100000000, false⟩, false⟩).run
        [.allow, .waitCall ⟨none⟩, .waitStep 0, .waitStep 0, .advance 100000000,
          .tickerFire, .refillRecv, .refillTick none, .waitStep 0,
          .advance 100000000, .tickerFire, .refillRecv]
      = some
        { tb := ⟨10, 1, 1, ⟨100000000, false⟩, false⟩,
          waiters := [⟨.parked, ⟨none⟩, 0⟩], refill := .ticked, tickPending := false,
          now := 200000000, nextTick := 300000000, panicked := false, admitted := 1,
          fired := 2, ticks := 1, added := 1 } ∧
    (Sys.mk ⟨10, 1, 1, ⟨100000000, false⟩, false⟩ [⟨.parked, ⟨none⟩, 0⟩] .ticked false
        200000000 300000000 false 1 2 1 1).anyParked = true ∧
    (Sys.mk ⟨10, 1, 1, ⟨100000000, false⟩, false⟩ [⟨.parked, ⟨none⟩, 0⟩] .ticked false
        200000000 300000000 false 1 2 1 1).step (.refillTick (some 0)) = none ∧
    (Sys.mk ⟨10, 1, 1, ⟨100000000, false⟩, false⟩ [⟨.parked, ⟨none⟩, 0⟩] .ticked false
        200000000 300000000 false 1 2 1 1).step (.refillTick none)
      = some (Sys.mk ⟨10, 1, 1, ⟨100000000, false⟩, false⟩ [⟨.parked, ⟨none⟩, 0⟩] .idle false
        200000000 300000000 false 1 2 2 1) ∧
    (⟨10, 1, 1, ⟨100000000, false⟩, false⟩ : TokenBucket).refillTick true
      = (⟨10, 1, 1, ⟨100000000, false⟩, false⟩, false) := by
  decide

/-- The send on the wake-up signal, in every state in which `refill` is about to handle a
tick.  If the tick finds `tokens < capacity`, the count is incremented and the send is
delivered to a call of `Wait` suspended with a live context whenever there is one (the tick
cannot end without a delivery), and dropped otherwise.  If the tick finds the bucket full,
no call is woken, whoever is suspended: the tick is only counted as handled. -/
theorem refillTick_send (s : Sys) (hp : s.panicked = false) (hr : s.refill = .ticked) :
    (s.tb.tokens < s.tb.capacity →
      (∀ (j : Nat) (w : Waiter), s.waiters[j]? = some w → w.pc = .parked → w.ctx.err = none →
        s.step (.refillTick (some j))
          = some { s with
              tb := { s.tb with tokens := s.tb.tokens + 1 }
              refill := .idle, ticks := s.ticks + 1, added := s.added + 1
              waiters := s.waiters.set j { w with pc := .lock } } ∧
        s.step (.refillTick none) = none) ∧
      (s.anyParked = false →
        s.step (.refillTick none)
          = some { s with
              tb := { s.tb with tokens := s.tb.tokens + 1 }
              refill := .idle, ticks := s.ticks + 1, added := s.added + 1 })) ∧
    (¬ s.tb.tokens < s.tb.capacity →
      (∀ j : Nat, s.step (.refillTick (some j)) = none) ∧
      s.step (.refillTick none) = some { s with refill := .idle, ticks := s.ticks + 1 }) := by
  constructor
  · intro hlt
    constructor
    · intro j w hj hpc hlive
      have hany := anyParked_of_parked s j w hj hpc hlive
      constructor
      · simp [Sys.step, hp, hr, refillTick_lt s.tb _ hlt, hany, hj, hpc, hlive, hlt]
      · simp [Sys.step, hp, hr, refillTick_lt s.tb _ hlt, hany]
    · intro hany
      simp [Sys.step, hp, hr, refillTick_lt s.tb _ hlt, hany, hlt]
  · intro hge
    constructor
    · intro j
      simp [Sys.step, hp, hr, refillTick_full s.tb _ hge]
    · simp [Sys.step, hp, hr, refillTick_full s.tb _ hge, hge]

/-- A step taken while the ticker is stopped: the ticker stays stopped and does not fire,
`refill` handles no tick that was not in flight, and the count changes only by admissions
and by the ticks handled (`tokens + admitted - added` is conserved). -/
theorem sys_step_stopped {s s1 : Sys} {ev : Event} (hst : s.tb.ticker.stopped = true)
    (hs : s.step ev = some s1) :
    s1.tb.ticker.stopped = true ∧ s1.fired = s.fired ∧
    s1.ticks + s1.inflight ≤ s.ticks + s.inflight ∧
    s.added ≤ s1.added ∧ s1.added + s.ticks ≤ s.added + s1.ticks ∧
    s1.tb.tokens + (s1.admitted : Int) + (s.added : Int)
      = s.tb.tokens + (s.admitted : Int) + (s1.added : Int) := by
  unfold Sys.step at hs
  split at hs
  · cases hs
  · cases ev <;> simp only [] at hs
    case allow =>
      cases hs
      have hf := Allow_fixed s.tb
      have ht := Allow_tokens s.tb
      refine ⟨by rw [hf.2.2.1]; exact hst, rfl, le_refl _, le_refl _, le_refl _, ?_⟩
      rcases ht with ⟨ha, _, hc⟩ | ⟨ha, _, hc⟩
      · simp only [ha, hc]
        push_cast
        omega
      · simp only [ha, hc]
        simp
    case waitCall ctx =>
      cases hs
      exact ⟨hst, rfl, le_refl _, le_refl _, le_refl _, rfl⟩
    case waitStep j =>
      split at hs
      · cases hs
      · split at hs
        · cases hs
        · rename_i h
          cases hs
          obtain ⟨_, _, f3, _, hc⟩ := WaitStep_fixed h
          refine ⟨by simp only [f3]; exact hst, rfl, le_refl _, le_refl _, le_refl _, ?_⟩
          rcases hc with ⟨ha, _, hc, _⟩ | ⟨ha, hb⟩
          · simp only [ha, hc]
            push_cast
            omega
          · subst hb
            simp only [ha]
            simp
    case ctxDone j e =>
      split at hs
      · cases hs
      · split at hs
        · cases hs
          exact ⟨hst, rfl, le_refl _, le_refl _, le_refl _, rfl⟩
        · cases hs
    case advance d =>
      cases hs
      exact ⟨hst, rfl, le_refl _, le_refl _, le_refl _, rfl⟩
    case tickerFire =>
      split at hs
      · rename_i hg
        rw [hst] at hg
        exact absurd hg.1 (by decide)
      · cases hs
    case refillRecv =>
      split at hs
      · rename_i hg
        cases hs
        refine ⟨hst, rfl, ?_, le_refl _, le_refl _, rfl⟩
        simp [Sys.inflight, hg.1, hg.2]
      · cases hs
    case refillTick wake =>
      have hf := refillTick_fixed s.tb s.anyParked
      have ht := refillTick_tokens s.tb s.anyParked
      have key : s.refill = .ticked →
          (s.tb.refillTick s.anyParked).1.ticker.stopped = true ∧
          s.ticks + 1 + (if s.tickPending = true then 1 else 0) ≤ s.ticks + s.inflight ∧
          s.added ≤ s.added + (if s.tb.tokens < s.tb.capacity then 1 else 0) ∧
          s.added + (if s.tb.tokens < s.tb.capacity then 1 else 0) + s.ticks
            ≤ s.added + (s.ticks + 1) ∧
          (s.tb.refillTick s.anyParked).1.tokens + (s.admitted : Int) + (s.added : Int)
            = s.tb.tokens + (s.admitted : Int)
              + ((s.added + (if s.tb.tokens < s.tb.capacity then 1 else 0) : Nat) : Int) := by
        intro hr
        refine ⟨by rw [hf.2.2.1]; exact hst, by simp [Sys.inflight, hr]; omega, by omega, ?_, ?_⟩
        · split <;> omega
        · rcases ht with ⟨ha, hb⟩ | ⟨ha, hb⟩
          · simp only [hb, if_pos ha]
            push_cast
            omega
          · simp only [hb, if_neg ha]
            push_cast
            omega
      split at hs
      · rename_i hr
        obtain ⟨k1, k2, k3, k4, k5⟩ := key hr
        split at hs
        · cases hs
          refine ⟨k1, rfl, ?_, k3, k4, k5⟩
          simp only [Sys.inflight] at k2 ⊢
          simp
          omega
        · split at hs
          · split at hs
            · cases hs
              refine ⟨k1, rfl, ?_, k3, k4, k5⟩
              simp only [Sys.inflight] at k2 ⊢
              simp
              omega
            · cases hs
          · cases hs
        · cases hs
      · cases hs
    case refillExit =>
      split at hs
      · rename_i hg
        cases hs
        refine ⟨hst, rfl, ?_, le_refl _, le_refl _, rfl⟩
        simp [Sys.inflight]
      · cases hs
    case stop =>
      split at hs
      · cases hs
        exact ⟨hst, rfl, le_refl _, le_refl _, le_refl _, rfl⟩
      · rename_i h
        cases hs
        obtain ⟨_, _, f3, _, f5, _⟩ := Stop_fixed h
        refine ⟨f5, rfl, le_refl _, le_refl _, le_refl _, ?_⟩
        simp only [f3]

/-- A run taken while the ticker is stopped: the facts of `sys_step_stopped`, from the
first state of the run to its last. -/
theorem sys_run_stopped (evs : List Event) :
    ∀ s s1 : Sys, s.tb.ticker.stopped = true → s.run evs = some s1 →
      s1.fired = s.fired ∧
      s1.ticks + s1.inflight ≤ s.ticks + s.inflight ∧
      s.added ≤ s1.added ∧ s1.added + s.ticks ≤ s.added + s1.ticks ∧
      s1.tb.tokens + (s1.admitted : Int) + (s.added : Int)
        = s.tb.tokens + (s.admitted : Int) + (s1.added : Int) := by
  induction evs with
  | nil =>
    intro s s1 _ hr
    simp only [Sys.run, Option.some.injEq] at hr
    subst hr
    exact ⟨rfl, le_refl _, le_refl _, le_refl _, rfl⟩
  | cons ev evs ih =>
    intro s s1 hst hr
    simp only [Sys.run] at hr
    split at hr
    · cases hr
    · rename_i s2 hstep
      obtain ⟨a1, a2, a3, a4, a5, a6⟩ := sys_step_stopped hst hstep
      obtain ⟨b2, b3, b4, b5, b6⟩ := ih s2 s1 a1 hr
      refine ⟨by rw [b2, a2], by omega, by omega, by omega, by omega⟩

/-- Nothing runs in a program that has panicked. -/
theorem sys_run_panicked (s s1 : Sys) (evs : List Event) (hp : s.panicked = true)
    (hr : s.run evs = some s1) : s1 = s := by
  cases evs with
  | nil =>
    simp only [Sys.run, Option.some.injEq] at hr
    exact hr.symm
  | cons ev evs =>
    simp [Sys.run, Sys.step, hp] at hr

/-- At most two ticks are ever in flight. -/
theorem inflight_le_two (s : Sys) : s.inflight ≤ 2 := by
  unfold Sys.inflight
  split
  · omega
  · split <;> split <;> omega

/-- C11 as stated fails on the code.  On `New(10, 1)`: an `Allow` empties the bucket, the
ticker fires after 100 ms and `refill` receives the tick; then `Stop` runs and returns
(ticker stopped, stop channel closed) with `tokens = 0`; after that `refill` handles the
tick it had received and sets `tokens = 1`, although no admission call has run. -/
theorem shutdown_counterexample :
    (New 10 1).result = .bucket ⟨10, 1, 1, ⟨100000000, false⟩, false⟩ ∧
    (Sys.init ⟨10, 1, 1, ⟨100000000, false⟩, false⟩).run
        [.allow, .advance 100000000, .tickerFire, .refillRecv, .stop]
      = some
        { tb := ⟨10, 1, 0, ⟨100000000, true⟩, true⟩,
          waiters := [], refill := .ticked, tickPending := false,
          now := 100000000, nextTick := 200000000, panicked := false, admitted := 1,
          fired := 1, ticks := 0, added := 0 } ∧
    (Sys.mk ⟨10, 1, 0, ⟨100000000, true⟩, true⟩ [] .ticked false
        100000000 200000000 false 1 1 0 0).run [.refillTick none]
      = some (Sys.mk ⟨10, 1, 1, ⟨100000000, true⟩, true⟩ [] .idle false
        100000000 200000000 false 1 1 1 1) := by
  decide

/-- C11, amended: once `Stop` has returned, the ticker never fires again and `refill`
handles no tick other than those in flight at that moment, at most two (one it has
received but not yet handled, one waiting in the ticker channel).  So at every later
point the token count, apart from what admission calls took (`tokens + admitted`), is at
least what it was when `Stop` returned and exceeds it by at most the number of ticks that
were in flight; when none was in flight (in particular once `refill` has returned), the
token count is the same at every later point unless an admission call changes it. -/
theorem shutdown_inflight (s0 s1 s : Sys) (evs : List Event)
    (hstop : s0.step .stop = some s1) (hrun : s1.run evs = some s) :
    s.fired = s1.fired ∧
    s.ticks + s.inflight ≤ s1.ticks + s1.inflight ∧ s1.inflight ≤ 2 ∧
    s1.tb.tokens + (s1.admitted : Int) ≤ s.tb.tokens + (s.admitted : Int) ∧
    s.tb.tokens + (s.admitted : Int) ≤ s1.tb.tokens + (s1.admitted : Int) + (s1.inflight : Int) ∧
    (s1.inflight = 0 →
      s.tb.tokens + (s.admitted : Int) = s1.tb.tokens + (s1.admitted : Int)) := by
  have h2 := inflight_le_two s1
  by_cases hp : s1.panicked = true
  · have := sys_run_panicked s1 s evs hp hrun
    subst this
    exact ⟨rfl, le_refl _, h2, le_refl _, by omega, fun _ => rfl⟩
  · have hst : s1.tb.ticker.stopped = true := by
      unfold Sys.step at hstop
      split at hstop
      · cases hstop
      · simp only [] at hstop
        split at hstop
        · cases hstop
          exact absurd rfl hp
        · rename_i h
          cases hstop
          exact (Stop_fixed h).2.2.2.2.1
    obtain ⟨b1, b2, b3, b4, b5⟩ := sys_run_stopped evs s1 s hst hrun
    refine ⟨b1, b2, h2, by omega, by omega, fun h0 => by omega⟩

/-- C11 amended, on `New(10, 1)`: `Stop` with no tick in flight; afterwards time passes, an
`Allow` takes the token and `refill` returns: `tokens + admitted` stays 1. -/
theorem shutdown_inflight_witness :
    (New 10 1).result = .bucket ⟨10, 1, 1, ⟨100000000, false⟩, false⟩ ∧
    (Sys.init ⟨10, 1, 1, ⟨100000000, false⟩, false⟩).step .stop
      = some (Sys.init ⟨10, 1, 1, ⟨100000000, true⟩, true⟩) ∧
    (Sys.init ⟨10, 1, 1, ⟨100000000, true⟩, true⟩).run
        [.advance 500000000, .allow, .refillExit]
      = some
        { tb := ⟨10, 1, 0, ⟨100000000, true⟩, true⟩,
          waiters := [], refill := .exited, tickPending := false,
          now := 500000000, nextTick := 100000000, panicked := false, admitted := 1,
          fired := 0, ticks := 0, added := 0 } ∧
    (0 : Int) + ((1 : Nat) : Int) = 1 + ((0 : Nat) : Int) :=
  ⟨by decide, by decide, by decide,
    (shutdown_inflight (Sys.init ⟨10, 1, 1, ⟨100000000, false⟩, false⟩)
      (Sys.init ⟨10, 1, 1, ⟨100000000, true⟩, true⟩)
      { tb := ⟨10, 1, 0, ⟨100000000, true⟩, true⟩,
        waiters := [], refill := .exited, tickPending := false,
        now := 500000000, nextTick := 100000000, panicked := false, admitted := 1,
        fired := 0, ticks := 0, added := 0 }
      [.advance 500000000, .allow, .refillExit] (by decide) (by decide)).2.2.2.2.2
      (by decide)⟩

/-- A background step on a full bucket wakes no call of `Wait` and leaves the bucket
full. -/
theorem sys_step_full_background {s s1 : Sys} {ev : Event}
    (hfull : ¬ s.tb.tokens < s.tb.capacity) (hb : ev.isBackground = true)
    (hs : s.step ev = some s1) :
    s1.waiters = s.waiters ∧ s1.tb.tokens = s.tb.tokens ∧ s1.tb.capacity = s.tb.capacity := by
  unfold Sys.step at hs
  split at hs
  · cases hs
  · cases ev <;> simp only [Event.isBackground] at hb <;> simp only [] at hs
    case advance d => cases hs; exact ⟨rfl, rfl, rfl⟩
    case tickerFire =>
      split at hs
      · cases hs; exact ⟨rfl, rfl, rfl⟩
      · cases hs
    case refillRecv =>
      split at hs
      · cases hs; exact ⟨rfl, rfl, rfl⟩
      · cases hs
    case refillTick wake =>
      rw [refillTick_full s.tb _ hfull] at hs
      split at hs
      · cases wake with
        | none =>
          simp only at hs
          cases hs
          exact ⟨rfl, rfl, rfl⟩
        | some j => simp at hs
      · cases hs
    case refillExit =>
      split at hs
      · cases hs; exact ⟨rfl, rfl, rfl⟩
      · cases hs
    case stop =>
      split at hs
      · cases hs; exact ⟨rfl, rfl, rfl⟩
      · rename_i h
        cases hs
        obtain ⟨_, f2, f3, _⟩ := Stop_fixed h
        exact ⟨rfl, f3, f2⟩
    all_goals exact absurd hb (by decide)

/-- Background steps alone, from a full bucket: every call of `Wait` stays where it is and
the bucket stays full. -/
theorem sys_run_full_background (evs : List Event) :
    ∀ s s1 : Sys, ¬ s.tb.tokens < s.tb.capacity → (∀ ev ∈ evs, ev.isBackground = true) →
      s.run evs = some s1 → s1.waiters = s.waiters ∧ s1.tb.tokens = s.tb.tokens := by
  induction evs with
  | nil =>
    intro s s1 _ _ hr
    simp only [Sys.run, Option.some.injEq] at hr
    subst hr
    exact ⟨rfl, rfl⟩
  | cons ev evs ih =>
    intro s s1 hfull hb hr
    simp only [Sys.run] at hr
    split at hr
    · cases hr
    · rename_i s2 hstep
      obtain ⟨a1, a2, a3⟩ :=
        sys_step_full_background hfull (hb ev (List.mem_cons_self _ _)) hstep
      obtain ⟨b1, b2⟩ := ih s2 s1 (by rw [a2, a3]; exact hfull)
        (fun e he => hb e (List.mem_cons_of_mem _ he)) hr
      exact ⟨by rw [b1, a1], by rw [b2, a2]⟩

/-- C13 fails on the code: a missed wake-up is reachable.  On `New(10, 1)`, after an `Allow`
a call of `Wait` with a live context finds the bucket empty and releases the lock; before
it reaches its `select`, the tick adds the token and the send finds no receiver; the call
then suspends.  It is now suspended with a live context while `tokens = capacity = 1`, and
whatever the ticker, the refill goroutine and `Stop` do from here, with no other caller and
the context left alone, it stays suspended and the token stays unused. -/
theorem missed_wakeup_reachable :
    (New 10 1).result = .bucket ⟨10, 1, 1, ⟨100000000, false⟩, false⟩ ∧
    (Sys.init ⟨10, 1, 1, ⟨100000000, false⟩, false⟩).run
        [.allow, .waitCall ⟨none⟩, .waitStep 0, .waitStep 0, .advance 100000000,
          .tickerFire, .refillRecv, .refillTick none, .waitStep 0]
      = some
        { tb := ⟨10, 1, 1, ⟨100000000, false⟩, false⟩,
          waiters := [⟨.parked, ⟨none⟩, 0⟩], refill := .idle, tickPending := false,
          now := 100000000, nextTick := 200000000, panicked := false, admitted := 1,
          fired := 1, ticks := 1, added := 1 } ∧
    (∀ (evs : List Event) (s : Sys), (∀ ev ∈ evs, ev.isBackground = true) →
      (Sys.mk ⟨10, 1, 1, ⟨100000000, false⟩, false⟩ [⟨.parked, ⟨none⟩, 0⟩] .idle false
        100000000 200000000 false 1 1 1 1).run evs = some s →
      s.waiters = [⟨.parked, ⟨none⟩, 0⟩] ∧ s.tb.tokens = 1) := by
  refine ⟨by decide, by decide, ?_⟩
  intro evs s hb hr
  exact sys_run_full_background evs _ s (by decide) hb hr

end Limiter
